import Mathlib

/-!
# GoSpoofer: envelope codec, response framer, rewrite pipeline and router

A shallow embedding of `GoSpoofer/arpc.go` (envelope codec, coordinate codec,
varints, zigzag, field reader) and of the framing, mutation and routing parts
of `GoSpoofer/main.go`.

Conventions of the embedding:

* a Go `byte` is a `Fin 256`; a Go `[]byte` and a Go `string` are `List Byte`;
* Go `int` and `int64` are `Int` (the platform `int` is 64 bits wide), Go
  `uint16`/`uint32` values are `Nat` reduced with an explicit `%`;
* a finite Go `float64` is an integer mantissa with a binary exponent, and
  every `float64` operation is the exact operation followed by IEEE 754
  rounding to nearest, ties to even;
* a Go function returning `nil` or an `error` returns `none` here;
* the standard-library calls the code relies on (`bytes.Reader.Read`,
  `strconv.Atoi`, `fmt.Sprintf("%d", _)`, `binary.BigEndian`) are embedded
  from their Go definitions next to the code that calls them.
-/

namespace GoSpoofer

/-! ## Bytes -/

/-- A Go `byte`. -/
abbrev Byte := Fin 256

/-- Conversion `byte(n)` of a non-negative integer: keeps the low 8 bits. -/
def byteOfNat (n : Nat) : Byte := ⟨n % 256, Nat.mod_lt n (by decide)⟩

/-- Conversion `byte(z)` of a signed integer: keeps the low 8 bits of the
twos-complement form. -/
def byteOfInt (z : Int) : Byte := byteOfNat (z % 256).toNat

/-- Result of `binary.BigEndian.Uint16(b)` on a 2-byte slice. -/
def beUint16 (b : List Byte) : Nat :=
  (b.getD 0 0).val * 256 + (b.getD 1 0).val

/-- Result of `binary.BigEndian.Uint32(b)` on a 4-byte slice. -/
def beUint32 (b : List Byte) : Nat :=
  (b.getD 0 0).val * 16777216 + (b.getD 1 0).val * 65536
    + (b.getD 2 0).val * 256 + (b.getD 3 0).val

/-- The two bytes of a 16-bit value, most significant first. -/
def be16 (n : Nat) : List Byte := [byteOfNat (n / 256), byteOfNat n]

/-- The four bytes of a 32-bit value, most significant first. -/
def be32 (n : Nat) : List Byte :=
  [byteOfNat (n / 16777216), byteOfNat (n / 65536), byteOfNat (n / 256), byteOfNat n]

/-! ## `bytes.Reader` -/

/-- A `bytes.Reader`: the underlying slice and the current read index. -/
structure Reader where
  s : List Byte
  i : Nat
deriving Repr, DecidableEq

/-- Call `bytes.NewReader(data)`. -/
def NewReader (data : List Byte) : Reader := ⟨data, 0⟩

/-- Call `r.Read(b)` for a freshly made `b := make([]byte, n)`.

The Go `Read` returns `io.EOF` (here `none`) exactly when the read index is at
or past the end of the slice, also when `b` is empty. Otherwise it copies
`min(n, unread)` bytes and returns a nil error, also when fewer than `n`
bytes were available; the rest of `b` keeps the zeros `make` put there.
The result is the content of `b` after the call and the advanced reader. -/
def Reader.Read (r : Reader) (n : Nat) : Option (List Byte × Reader) :=
  if r.i ≥ r.s.length then none
  else
    let got := (r.s.drop r.i).take n
    some (got ++ List.replicate (n - got.length) 0, ⟨r.s, r.i + got.length⟩)

/-! ## Request envelope -/

/-- The decoded request envelope (`ArpcRequest` in arpc.go). -/
structure ArpcRequest where
  Version : List Byte
  Locale : List Byte
  AppIdentifier : List Byte
  OsVersion : List Byte
  FunctionId : Int
  Payload : List Byte
deriving Repr, DecidableEq

/-- The ASCII digit of `d % 10`. -/
def digitByte (d : Nat) : Byte := byteOfNat (48 + d % 10)

/-- Decimal digits of `n`, most significant first, at most `fuel` of them. -/
def fmtDigits : Nat → Nat → List Byte
  | 0, _ => []
  | fuel + 1, n =>
    if n < 10 then [digitByte n] else fmtDigits fuel (n / 10) ++ [digitByte n]

/-- Result of `fmt.Sprintf("%d", version)` for a `uint16`: the canonical
decimal text (a `uint16` has at most 5 digits). -/
def sprintfUint16 (version : Nat) : List Byte := fmtDigits 5 version

/-- Function `readPascalString(r, &remaining)`: the string read, the advanced
reader and the updated `remaining`; `none` when it returns an error. -/
def readPascalString (r : Reader) (remaining : Int) :
    Option (List Byte × Reader × Int) :=
  match r.Read 2 with
  | none => none
  | some (lengthBytes, r1) =>
    let remaining1 := remaining - 2
    let length := beUint16 lengthBytes
    if (length : Int) > remaining1 then none
    else
      match r1.Read length with
      | none => none
      | some (str, r2) => some (str, r2, remaining1 - (length : Int))

/-- Function `ArpcDeserialize(data)`; `none` is the nil result. -/
def ArpcDeserialize (data : List Byte) : Option ArpcRequest :=
  let r := NewReader data
  let remaining : Int := data.length
  match r.Read 2 with
  | none => none
  | some (versionBytes, r) =>
    let remaining := remaining - 2
    let version := beUint16 versionBytes
    match readPascalString r remaining with
    | none => none
    | some (locale, r, remaining) =>
      match readPascalString r remaining with
      | none => none
      | some (appIdentifier, r, remaining) =>
        match readPascalString r remaining with
        | none => none
        | some (osVersion, r, remaining) =>
          match r.Read 4 with
          | none => none
          | some (unknownBytes, r) =>
            let remaining := remaining - 4
            let functionId : Int := beUint32 unknownBytes
            match r.Read 4 with
            | none => none
            | some (payloadLenBytes, r) =>
              let remaining := remaining - 4
              let payloadLen := beUint32 payloadLenBytes
              if (payloadLen : Int) > remaining then none
              else
                match r.Read payloadLen with
                | none => none
                | some (payload, _) =>
                  some
                    { Version := sprintfUint16 version
                      Locale := locale
                      AppIdentifier := appIdentifier
                      OsVersion := osVersion
                      FunctionId := functionId
                      Payload := payload }

/-! ## `strconv.Atoi` -/

/-- Largest `int64`. -/
def maxInt64 : Int := 9223372036854775807

/-- Smallest `int64`. -/
def minInt64 : Int := -9223372036854775808

/-- Largest `uint64`. -/
def maxUint64 : Nat := 18446744073709551615

/-- The digit loop of the fast path of `strconv.Atoi`: `ch -= '0'` in byte
arithmetic, a syntax error (`none`) when the result exceeds 9. -/
def atoiLoop : List Byte → Int → Option Int
  | [], n => some n
  | ch :: rest, n =>
    let c := (ch.val + 256 - 48) % 256
    if c > 9 then none else atoiLoop rest (n * 10 + (c : Int))

/-- The digit loop of `strconv.ParseUint(s, 10, 64)`. The result is
`(value, ok, rangeErr)`: a syntax error gives `(0, false, false)`, an
overflow stops at once with `(maxUint64, false, true)`. -/
def parseUintLoop : List Byte → Nat → Nat × Bool × Bool
  | [], n => (n, true, false)
  | c :: rest, n =>
    if 48 ≤ c.val ∧ c.val ≤ 57 then
      let d := c.val - 48
      if n ≥ maxUint64 / 10 + 1 then (maxUint64, false, true)
      else
        let n1 := n * 10 + d
        if n1 > maxUint64 then (maxUint64, false, true)
        else parseUintLoop rest n1
    else (0, false, false)

/-- Call `strconv.ParseUint(s, 10, 64)`. -/
def ParseUint (s : List Byte) : Nat × Bool × Bool :=
  if s = [] then (0, false, false) else parseUintLoop s 0

/-- Call `strconv.ParseInt(s, 10, 0)`: the value and whether the error is nil. -/
def ParseInt (s : List Byte) : Int × Bool :=
  match s with
  | [] => (0, false)
  | c :: rest =>
    let neg := c.val = 45
    let digits := if c.val = 43 ∨ c.val = 45 then rest else s
    match ParseUint digits with
    | (un, ok, rangeErr) =>
      if ¬ ok ∧ ¬ rangeErr then (0, false)
      else if ¬ neg ∧ un ≥ 9223372036854775808 then (maxInt64, false)
      else if neg ∧ un > 9223372036854775808 then (minInt64, false)
      else (if neg then -(un : Int) else (un : Int), true)

/-- Call `strconv.Atoi(s)`: the value and whether the error is nil. Strings
of 1 to 18 bytes take the fast path, all others go through `ParseInt`. -/
def Atoi (s : List Byte) : Int × Bool :=
  if 0 < s.length ∧ s.length < 19 then
    match s with
    | [] => (0, false)
    | c :: rest =>
      let digits := if c.val = 45 ∨ c.val = 43 then rest else s
      if digits.length < 1 then (0, false)
      else
        match atoiLoop digits 0 with
        | none => (0, false)
        | some n => (if c.val = 45 then -n else n, true)
  else ParseInt s

/-! ## Encoder -/

/-- Function `appendPascalString(buf, s)`. -/
def appendPascalString (buf : List Byte) (s : List Byte) : List Byte :=
  let length := s.length % 65536
  (buf ++ [byteOfNat (length >>> 8), byteOfNat length]) ++ s

/-- Function `appendUint32(buf, v)`. -/
def appendUint32 (buf : List Byte) (v : Int) : List Byte :=
  buf ++ [byteOfInt (v >>> (24 : Nat)), byteOfInt (v >>> (16 : Nat)),
    byteOfInt (v >>> (8 : Nat)), byteOfInt v]

/-- Function `ArpcSerialize(arpc)`. -/
def ArpcSerialize (arpc : ArpcRequest) : List Byte :=
  let buf : List Byte := []
  let version := (Atoi arpc.Version).1
  let buf := buf ++ [byteOfInt (version >>> (8 : Nat)), byteOfInt version]
  let buf := appendPascalString buf arpc.Locale
  let buf := appendPascalString buf arpc.AppIdentifier
  let buf := appendPascalString buf arpc.OsVersion
  let buf := buf ++ [0, 0, 0, 0]
  let buf := appendUint32 buf (arpc.Payload.length : Int)
  let buf := buf ++ arpc.Payload
  buf

/-! ## Response framer -/

/-- Call `binary.BigEndian.PutUint16(b, v)` on a fresh 2-byte slice: the
content of `b` afterwards. -/
def putUint16 (v : Nat) : List Byte := [byteOfNat (v >>> 8), byteOfNat v]

/-- Outcome of `SerializeProto`: a panic, a returned error, or the bytes. -/
inductive SerializeResult where
  | panicked : SerializeResult
  | failed : SerializeResult
  | ok : List Byte → SerializeResult
deriving Repr, DecidableEq

/-- Function `SerializeProto(p, initial)` of main.go. `Marshal` stands for
`proto.Marshal` (`none` is its error); a nil `p` or a nil `initial` is `none`.
The length prefix is `uint16(len(b))`, the low 16 bits of the length. -/
def SerializeProto {M : Type} (Marshal : M → Option (List Byte)) (p : Option M)
    (initial : Option (List Byte)) : SerializeResult :=
  match p with
  | none => SerializeResult.panicked
  | some p =>
    match Marshal p with
    | none => SerializeResult.failed
    | some b =>
      let int16Len := putUint16 (b.length % 65536)
      match initial with
      | some initial => SerializeResult.ok (initial ++ (int16Len ++ b))
      | none => SerializeResult.ok b

/-- The bytes of `hex.DecodeString("0001000000010000")`, the fixed response
header of `handleLocationRequest`. -/
def initialBytes : List Byte := [0, 1, 0, 0, 0, 1, 0, 0]

/-! ## Positioning message -/

/-- Modelled from the spec: the generated `pb.Location` message (package `pb`
is not part of the sources). Holds the eight fields main.go assigns; each is
an optional signed 64-bit integer (`*int64`), `none` when absent. -/
structure Location where
  Latitude : Option Int := none
  Longitude : Option Int := none
  HorizontalAccuracy : Option Int := none
  VerticalAccuracy : Option Int := none
  Altitude : Option Int := none
  UnknownValue4 : Option Int := none
  MotionActivityType : Option Int := none
  MotionActivityConfidence : Option Int := none
deriving Repr, DecidableEq

/-- Modelled from the spec: the generated `pb.WifiDevice` message, a wifi
observation: its BSSID (a plain string, empty when not set) and its optional
location (`*pb.Location`, `none` when nil). -/
structure WifiDevice where
  Bssid : List Byte
  Location : Option Location
deriving Repr, DecidableEq

/-- Modelled from the spec: the generated `pb.AppleWLoc` message: the wifi
observations and the three optional summary fields. -/
structure AppleWLoc where
  WifiDevices : List WifiDevice
  NumCellResults : Option Int
  NumWifiResults : Option Int
  DeviceType : Option Int
deriving Repr, DecidableEq

/-! ## Rewrite pipeline -/

/-- The body of the `for i, device := range wloc.WifiDevices` loop of
`handleLocationRequest`: make sure the device has a location, then assign
the eight fields. -/
def spoofDevice (lat lon : Int) (device : WifiDevice) : WifiDevice :=
  let location : Location :=
    match device.Location with
    | none => {}
    | some location => location
  { device with
    Location := some
      { location with
        Latitude := some lat
        Longitude := some lon
        HorizontalAccuracy := some 39
        VerticalAccuracy := some 1000
        Altitude := some 530
        UnknownValue4 := some 3
        MotionActivityType := some 63
        MotionActivityConfidence := some 467 } }

/-- The mutation step of `handleLocationRequest`: the loop over all wifi
devices, `lat` and `lon` being `IntFromCoord(spoofLat)` and
`IntFromCoord(spoofLon)`. -/
def spoofWifiDevices (lat lon : Int) (wloc : AppleWLoc) : AppleWLoc :=
  { wloc with WifiDevices := wloc.WifiDevices.map (spoofDevice lat lon) }

/-- The sanitize step of `handleLocationRequest`: the three summary fields
are set to nil. -/
def clearSummaryFields (wloc : AppleWLoc) : AppleWLoc :=
  { wloc with NumCellResults := none, NumWifiResults := none, DeviceType := none }

/-- The external collaborators of the pipeline. `F` is the type of `float64`
values; `Unmarshal` and `Marshal` stand for `proto.Unmarshal` and
`proto.Marshal` on `pb.AppleWLoc` (`none` is an error), `IntFromCoord` for
the floating-point conversion `int64(coord * math.Pow10(8))` of arpc.go. -/
structure Collaborators (F : Type) where
  Unmarshal : List Byte → Option AppleWLoc
  Marshal : AppleWLoc → Option (List Byte)
  IntFromCoord : F → Int

/-- The body of an `http.Request`, a stream that is consumed by reading:
`unread` are the bytes a reader still gets, `readFails` tells whether the
stream then ends in an error instead of EOF, `closed` whether `Close` has
been called. -/
structure RequestBody where
  unread : List Byte
  readFails : Bool
  closed : Bool
deriving Repr, DecidableEq

/-- The parts of an `http.Request` the handlers look at. -/
structure Request where
  Host : List Byte
  Path : List Byte
  Method : List Byte
  Body : RequestBody
deriving Repr, DecidableEq

/-- The `http.Response` built by `handleLocationRequest`. -/
structure Response where
  StatusCode : Nat
  Status : List Byte
  Proto : List Byte
  ProtoMajor : Nat
  ProtoMinor : Nat
  Header : List (List Byte × List Byte)
  Body : List Byte
  ContentLength : Int
deriving Repr, DecidableEq

/-- The bytes of an ASCII string literal. -/
def ascii (s : String) : List Byte := s.toList.map (fun c => byteOfNat c.toNat)

/-- Function `handleLocationRequest(req)` of main.go, with the process-wide
`spoofLat` and `spoofLon` passed in. `io.ReadAll(req.Body)` followed by
`req.Body.Close()` drains and closes the body of the request, which is the
same request that is handed back. A recovered panic makes the function return
`(nil, nil)`, here `(none, none)`. -/
def handleLocationRequest {F : Type} (env : Collaborators F) (spoofLat spoofLon : F)
    (req : Request) : Option Request × Option Response :=
  let body := req.Body.unread
  let err := req.Body.readFails
  let req := { req with Body := { req.Body with unread := [], closed := true } }
  if err then (some req, none)
  else
    match ArpcDeserialize body with
    | none => (some req, none)
    | some arpc =>
      match env.Unmarshal arpc.Payload with
      | none => (some req, none)
      | some wloc =>
        let lat := env.IntFromCoord spoofLat
        let lon := env.IntFromCoord spoofLon
        let wloc := spoofWifiDevices lat lon wloc
        let wloc := clearSummaryFields wloc
        match SerializeProto env.Marshal (some wloc) (some initialBytes) with
        | SerializeResult.panicked => (none, none)
        | SerializeResult.failed => (some req, none)
        | SerializeResult.ok responseBytes =>
          (some req, some
            { StatusCode := 200
              Status := ascii "200 OK"
              Proto := ascii "HTTP/1.1"
              ProtoMajor := 1
              ProtoMinor := 1
              Header := [(ascii "Content-Type", ascii "application/octet-stream")]
              Body := responseBytes
              ContentLength := (responseBytes.length : Int) })

/-! ## Interception router -/

/-- The two actions `customMitmHandler` of `setupMITM` returns: the
`customCaMitm` action (`goproxy.ConnectMitm` with the TLS configuration made
from the local CA) and `goproxy.OkConnect`, the opaque tunnel. -/
inductive ConnectAction where
  | customCaMitm : ConnectAction
  | OkConnect : ConnectAction
deriving Repr, DecidableEq

/-- Call `strings.Split(s, sep)` for a one-byte separator: the pieces of `s`
between the occurrences of `sep`, a single piece when `sep` does not occur. -/
def stringsSplit (sep : Byte) : List Byte → List (List Byte)
  | [] => [[]]
  | c :: rest =>
    if c = sep then [] :: stringsSplit sep rest
    else
      match stringsSplit sep rest with
      | [] => [[c]]
      | first :: more => (c :: first) :: more

/-- The handler `customMitmHandler` registered by `setupMITM`: the action
chosen for the CONNECT target `host` and the host handed back. Element 0 of
the split always exists. -/
def customMitmHandler (host : List Byte) : ConnectAction × List Byte :=
  let hostname := (stringsSplit 58 host).headD []
  if hostname = ascii "gs-loc.apple.com" ∨ hostname = ascii "gs-loc-cn.apple.com" then
    (ConnectAction.customCaMitm, host)
  else (ConnectAction.OkConnect, host)

/-- The request handler registered by `setupLocationSpoofing`. -/
def setupLocationSpoofing {F : Type} (env : Collaborators F) (spoofLat spoofLon : F)
    (req : Request) : Option Request × Option Response :=
  if req.Host = ascii "gs-loc.apple.com" ∨ req.Host = ascii "gs-loc-cn.apple.com" then
    if req.Path = ascii "/clls/wloc" ∧ req.Method = ascii "POST" then
      handleLocationRequest env spoofLat spoofLon req
    else (some req, none)
  else (some req, none)

/-! ## Varints, zigzag and the field reader -/

/-- Function `appendVarint(buf, v)` for a `uint64` value `v`. -/
def appendVarint (buf : List Byte) (v : Nat) : List Byte :=
  if v ≥ 0x80 then
    appendVarint (buf ++ [byteOfNat ((byteOfNat v).val ||| 0x80)]) (v >>> 7)
  else buf ++ [byteOfNat v]
termination_by v
decreasing_by
  simp only [Nat.shiftRight_eq_div_pow]
  omega

/-- The loop of `readVarint`, run on the bytes from `idx` on: `v` and `shift`
are the loop variables, `v` a `uint64` (a shift by 64 or more gives 0). -/
def readVarintLoop : List Byte → Nat → Nat → Nat → Nat × Nat × Bool
  | [], _, _, _ => (0, 0, false)
  | b :: rest, v, shift, idx =>
    let idx := idx + 1
    let v := v ||| (((b.val &&& 0x7F) <<< shift) % 18446744073709551616)
    if (b.val &&& 0x80) = 0 then (v, idx, true)
    else readVarintLoop rest v (shift + 7) idx

/-- Function `readVarint(data, idx)` for `idx ≥ 0`: `(value, newIdx, ok)`. -/
def readVarint (data : List Byte) (idx : Nat) : Nat × Nat × Bool :=
  readVarintLoop (data.drop idx) 0 0 idx

/-- Conversion `int(x)` of a `uint64`: values from 2^63 on become negative. -/
def intOfUint64 (x : Nat) : Int :=
  if x < 9223372036854775808 then (x : Int) else (x : Int) - 18446744073709551616

/-- Function `readField(data, idx)` for `idx ≥ 0`:
`(fieldNum, wire, dataStart, dataEnd, ok)`. -/
def readField (data : List Byte) (idx : Nat) : Nat × Nat × Int × Int × Bool :=
  if idx ≥ data.length then (0, 0, 0, 0, false)
  else
    let tag := data.getD idx 0
    let fieldNum := tag.val >>> 3
    let wire := tag.val &&& 0x7
    let idx := idx + 1
    if wire = 0 then
      match readVarint data idx with
      | (_, newIdx, ok) =>
        if ¬ ok then (0, 0, 0, 0, false)
        else (fieldNum, wire, (idx : Int), (newIdx : Int), true)
    else if wire = 1 then
      if idx + 8 > data.length then (0, 0, 0, 0, false)
      else (fieldNum, wire, (idx : Int), (idx : Int) + 8, true)
    else if wire = 2 then
      match readVarint data idx with
      | (length, newIdx, ok) =>
        if ¬ ok then (0, 0, 0, 0, false)
        else if intOfUint64 length > (data.length : Int) - (newIdx : Int) then
          (0, 0, 0, 0, false)
        else (fieldNum, wire, (idx : Int), (newIdx : Int) + intOfUint64 length, true)
    else (0, 0, 0, 0, false)

/-- Wrap-around of a mathematical integer into the `int64` range. -/
def wrapInt64 (z : Int) : Int :=
  (z + 9223372036854775808) % 18446744073709551616 - 9223372036854775808

/-- Conversion `uint64(z)` of an `int64`. -/
def uint64OfInt (z : Int) : Nat := (z % 18446744073709551616).toNat

/-- Function `encodeZigzag(n)` for an `int64` value `n`; the result is a
`uint64`. In the negative branch `^n` is `-n - 1`, and `+ 1`, `<< 1` and the
final `- 1` wrap around. -/
def encodeZigzag (n : Int) : Nat :=
  if n ≥ 0 then (uint64OfInt n <<< 1) % 18446744073709551616
  else
    (uint64OfInt (wrapInt64 (wrapInt64 (-n - 1 + 1) * 2)) + 18446744073709551616 - 1)
      % 18446744073709551616

/-- The standard zigzag formula `(n << 1) XOR (n >> 63)` on an `int64`, taken
as a `uint64`. -/
def zigzagStandard (n : Int) : Nat :=
  uint64OfInt (Int.xor (wrapInt64 (n * 2)) (n >>> (63 : Nat)))

/-! ## `float64` and the coordinate codec -/

/-- A finite `float64` value `m * 2 ^ e`, given by an integer mantissa and a
binary exponent. NaN and the infinities are not represented; they do not
arise from the operations below on the values the statements range over. -/
structure F64 where
  m : Int
  e : Int
deriving Repr, DecidableEq

/-- The pairs that denote a `float64`: a mantissa of at most 53 bits and an
exponent between the subnormal exponent -1074 and 971. -/
def F64.IsFloat64 (x : F64) : Prop :=
  x.m.natAbs < 9007199254740992 ∧ -1074 ≤ x.e ∧ x.e ≤ 971

/-- The rational number a `float64` value stands for. -/
def F64.toRat (x : F64) : ℚ := (x.m : ℚ) * (2 : ℚ) ^ x.e

/-- Number of bits of `a`, counted by halving at most `fuel` times. -/
def bitLengthAux : Nat → Nat → Nat
  | 0, _ => 0
  | fuel + 1, a => if a = 0 then 0 else bitLengthAux fuel (a / 2) + 1

/-- Number of bits of a natural number (0 for 0); `a` halvings always reach 0. -/
def bitLength (a : Nat) : Nat := bitLengthAux a a

/-- The quotient `a / 2 ^ k` rounded to the nearest integer, ties to even. -/
def roundHalfEven (a k : Nat) : Nat :=
  let q := a / 2 ^ k
  let r := a % 2 ^ k
  if 2 * r > 2 ^ k ∨ (2 * r = 2 ^ k ∧ q % 2 = 1) then q + 1 else q

/-- The integer of magnitude `a` with the sign of `m`. -/
def withSignOf (m : Int) (a : Nat) : Int := if m < 0 then -(a : Int) else (a : Int)

/-- IEEE 754 rounding of the exact value `m * 2 ^ e` to `float64`, to nearest
with ties to even: the mantissa is cut to 53 bits, and to fewer where the
exponent would fall below -1074. -/
def F64.round (m e : Int) : F64 :=
  let a := m.natAbs
  let k : Int := max ((bitLength a : Int) - 53) (-1074 - e)
  if k ≤ 0 then ⟨m, e⟩
  else ⟨withSignOf m (roundHalfEven a k.toNat), e + k⟩

/-- The `float64` product `x * y`: the exact product, rounded. -/
def F64.mul (x y : F64) : F64 := F64.round (x.m * y.m) (x.e + y.e)

/-- The `float64` quotient `x / y` for `y ≠ 0`: the mantissa quotient is
computed to at least 55 bits, a sticky bit records a non-zero remainder, and
the result is rounded. -/
def F64.div (x y : F64) : F64 :=
  let a := x.m.natAbs
  let b := y.m.natAbs
  let s := 55 + bitLength b - bitLength a
  let q := (a * 2 ^ s) / b
  let r := (a * 2 ^ s) % b
  let sticky : Nat := if r = 0 then 0 else 1
  F64.round (x.m.sign * y.m.sign * ((2 * q + sticky : Nat) : Int)) (x.e - y.e - (s : Int) - 1)

/-- The conversion `int64(f)`: truncation toward zero. Go defines it only
when the truncated value fits `int64`; the statements assume that it does. -/
def F64.toInt64 (x : F64) : Int :=
  if 0 ≤ x.e then x.m * 2 ^ x.e.toNat
  else withSignOf x.m (x.m.natAbs / 2 ^ (-x.e).toNat)

/-- The conversion `float64(n)` of an `int64`. -/
def F64.ofInt64 (n : Int) : F64 := F64.round n 0

/-- The table entry `pow10tab[8]` of package `math`, the `float64` 1e8. -/
def pow10tab8 : F64 := ⟨100000000, 0⟩

/-- Call `math.Pow10(8)`, computed as `pow10postab32[0] * pow10tab[8]`. -/
def Pow10_8 : F64 := F64.mul ⟨1, 0⟩ pow10tab8

/-- Call `math.Pow10(-8)`, computed as `pow10negtab32[0] / pow10tab[8]`. -/
def Pow10_neg8 : F64 := F64.div ⟨1, 0⟩ pow10tab8

/-- Function `CoordFromInt(n)` of arpc.go. -/
def CoordFromInt (n : Int) : F64 := F64.mul (F64.ofInt64 n) Pow10_neg8

/-- Function `IntFromCoord(coord)` of arpc.go; with `F := F64` it is the
`IntFromCoord` of `Collaborators`. -/
def IntFromCoord (coord : F64) : Int := F64.toInt64 (F64.mul coord Pow10_8)

/-! ## Definitions used in the statements -/

/-- The unread part of a reader. -/
def Reader.rest (r : Reader) : List Byte := r.s.drop r.i

/-- The request-envelope wire layout of the specification:
`u16 version | u16 len‖locale | u16 len‖appId | u16 len‖osVersion |
u32 functionId | u32 payloadLen | payload`, all integers big-endian. -/
def envelopeLayout (v : Nat) (l a o : List Byte) (f : Nat) (p : List Byte) : List Byte :=
  be16 v ++ (be16 l.length ++ (l ++ (be16 a.length ++ (a ++ (be16 o.length ++ (o ++
    (be32 f ++ (be32 p.length ++ p))))))))

/-- The request bytes of `TestDeserializeRealRequest` and `TestFullRoundTrip`
in main_test.go. -/
def testRequestBytes : List Byte :=
  [0x00, 0x01, 0x00, 0x0a, 0x65, 0x6e, 0x2d, 0x30, 0x30, 0x31, 0x5f, 0x30, 0x30, 0x31,
   0x00, 0x13, 0x63, 0x6f, 0x6d, 0x2e, 0x61, 0x70, 0x70, 0x6c, 0x65, 0x2e, 0x6c, 0x6f,
   0x63, 0x61, 0x74, 0x69, 0x6f, 0x6e, 0x64, 0x00, 0x0a, 0x32, 0x36, 0x2e, 0x32, 0x2e,
   0x32, 0x33, 0x43, 0x35, 0x35, 0x00, 0x00, 0x00, 0x02, 0x00, 0x00, 0x00, 0x00, 0x02,
   0x00, 0x00, 0x00]

/-! # Theorems -/

/-! ### Bytes -/

theorem byteOfNat_val (n : Nat) : (byteOfNat n).val = n % 256 := rfl

theorem byteOfNat_of_val (b : Byte) : byteOfNat b.val = b := by
  apply Fin.ext
  simp [byteOfNat, Nat.mod_eq_of_lt b.isLt]

theorem beUint16_be16 (n : Nat) (h : n < 65536) : beUint16 (be16 n) = n := by
  simp [beUint16, be16, byteOfNat]
  omega

theorem be16_beUint16 (b : List Byte) (h : b.length = 2) : be16 (beUint16 b) = b := by
  match b, h with
  | [x, y], _ =>
    have hx := x.isLt
    have hy := y.isLt
    simp only [be16, beUint16, List.getD_cons_zero, List.getD_cons_succ, List.cons.injEq, and_true]
    constructor
    · apply Fin.ext
      simp only [byteOfNat_val]
      omega
    · apply Fin.ext
      simp only [byteOfNat_val]
      omega

theorem beUint32_be32 (n : Nat) (h : n < 4294967296) : beUint32 (be32 n) = n := by
  simp [beUint32, be32, byteOfNat]
  omega

theorem be32_beUint32 (b : List Byte) (h : b.length = 4) : be32 (beUint32 b) = b := by
  match b, h with
  | [x, y, z, w], _ =>
    have hx := x.isLt
    have hy := y.isLt
    have hz := z.isLt
    have hw := w.isLt
    simp only [be32, beUint32, List.getD_cons_zero, List.getD_cons_succ, List.cons.injEq, and_true]
    refine ⟨?_, ?_, ?_, ?_⟩ <;>
    · apply Fin.ext
      simp only [byteOfNat_val]
      omega

theorem beUint16_lt (b : List Byte) : beUint16 b < 65536 := by
  have h0 := (b.getD 0 0).isLt
  have h1 := (b.getD 1 0).isLt
  simp only [beUint16]
  omega

theorem beUint32_lt (b : List Byte) : beUint32 b < 4294967296 := by
  have h0 := (b.getD 0 0).isLt
  have h1 := (b.getD 1 0).isLt
  have h2 := (b.getD 2 0).isLt
  have h3 := (b.getD 3 0).isLt
  simp only [beUint32]
  omega

theorem be16_length (n : Nat) : (be16 n).length = 2 := rfl

theorem be32_length (n : Nat) : (be32 n).length = 4 := rfl

/-! ### Reader -/

theorem Reader.Read_eq_none_iff (r : Reader) (n : Nat) :
    r.Read n = none ↔ r.rest = [] := by
  simp only [Reader.Read, Reader.rest]
  split
  · simp [List.drop_eq_nil_iff, *]
  · rename_i h
    simp only [false_iff, reduceCtorEq]
    intro h2
    exact h (List.drop_eq_nil_iff.mp h2)

theorem Reader.rest_length_of_Read {r r1 : Reader} {n : Nat} {buf : List Byte}
    (h : r.Read n = some (buf, r1)) :
    r.rest ≠ [] ∧ r1.rest.length = r.rest.length - n := by
  simp only [Reader.Read] at h
  split at h
  · cases h
  · rename_i hlt
    simp only [Option.some.injEq, Prod.mk.injEq] at h
    obtain ⟨_, rfl⟩ := h
    simp only [Reader.rest, List.length_drop, List.length_take, ne_eq, List.drop_eq_nil_iff]
    omega

theorem Reader.Read_full {r r1 : Reader} {n : Nat} {buf : List Byte}
    (h : r.Read n = some (buf, r1)) (hn : n ≤ r.rest.length) :
    r.rest = buf ++ r1.rest ∧ buf.length = n := by
  simp only [Reader.Read] at h
  split at h
  · cases h
  · simp only [Option.some.injEq, Prod.mk.injEq] at h
    obtain ⟨rfl, rfl⟩ := h
    simp only [Reader.rest, List.length_drop] at hn ⊢
    have hl : (List.take n (List.drop r.i r.s)).length = n := by
      simp only [List.length_take, List.length_drop]; omega
    rw [hl, Nat.sub_self]
    simp only [List.replicate_zero, List.append_nil, List.length_take, List.length_drop]
    refine ⟨?_, by omega⟩
    rw [← List.drop_drop, List.take_append_drop]

theorem Reader.Read_of_rest {r : Reader} {x tail : List Byte} {n : Nat}
    (h : r.rest = x ++ tail) (hx : x.length = n) (hne : x ++ tail ≠ []) :
    ∃ r1, r.Read n = some (x, r1) ∧ r1.rest = tail := by
  have hlt : ¬ r.i ≥ r.s.length := by
    intro hge
    apply hne
    rw [← h]
    exact List.drop_eq_nil_iff.mpr hge
  refine ⟨⟨r.s, r.i + ((r.s.drop r.i).take n).length⟩, ?_, ?_⟩
  · simp only [Reader.Read, if_neg hlt]
    simp only [Reader.rest] at h
    rw [h, ← hx]
    simp
  · simp only [Reader.rest] at h ⊢
    rw [← List.drop_drop, h, ← hx]
    simp

/-! ### Length-prefixed strings -/

theorem readPascalString_some {r r2 : Reader} {rem rem2 : Int} {str : List Byte}
    (h : readPascalString r rem = some (str, r2, rem2)) (hinv : rem ≤ r.rest.length) :
    r.rest = be16 str.length ++ (str ++ r2.rest) ∧ str.length < 65536 ∧
      rem2 = rem - 2 - str.length ∧ 0 ≤ rem2 ∧ rem2 ≤ r2.rest.length := by
  simp only [readPascalString] at h
  split at h
  · cases h
  · rename_i lb r1 hread
    split at h
    · cases h
    · rename_i hchk
      split at h
      · cases h
      · rename_i s r2x hread2
        simp only [Option.some.injEq, Prod.mk.injEq] at h
        obtain ⟨rfl, rfl, rfl⟩ := h
        have hl1 := (Reader.rest_length_of_Read hread).2
        have hl2 := (Reader.rest_length_of_Read hread2).2
        have hf1 := Reader.Read_full hread (by omega)
        have hf2 := Reader.Read_full hread2 (by omega)
        have hlt := beUint16_lt lb
        refine ⟨?_, ?_, ?_, ?_, ?_⟩
        · rw [hf2.2, be16_beUint16 lb hf1.2, ← hf2.1]
          exact hf1.1
        · omega
        · omega
        · omega
        · omega

theorem readPascalString_of_rest {r : Reader} {str tail : List Byte} (rem : Int)
    (h : r.rest = be16 str.length ++ (str ++ tail)) (hlen : str.length < 65536)
    (hne : str ++ tail ≠ []) (hrem : rem = r.rest.length) :
    ∃ r2, readPascalString r rem = some (str, r2, (tail.length : Int)) ∧ r2.rest = tail := by
  obtain ⟨r1, hr1, hrest1⟩ := Reader.Read_of_rest h (be16_length _) (by simp [be16])
  obtain ⟨r2, hr2, hrest2⟩ := Reader.Read_of_rest hrest1 rfl hne
  refine ⟨r2, ?_, hrest2⟩
  have hl : (r.rest.length : Int) = 2 + (str.length + tail.length) := by
    rw [h]; simp [be16_length]
  simp only [readPascalString, hr1, beUint16_be16 _ hlen, hr2]
  rw [if_neg (by omega)]
  simp only [Option.some.injEq, Prod.mk.injEq, true_and]
  omega

/-! ### Decoder -/

theorem NewReader_rest (d : List Byte) : (NewReader d).rest = d := rfl

/-- Every successful decode consumed a well-formed envelope: all reads were
full, and the input is the wire layout of the result followed by unread bytes. -/
theorem ArpcDeserialize_some {d : List Byte} {req : ArpcRequest}
    (h : ArpcDeserialize d = some req) :
    ∃ (v f : Nat) (t : List Byte), v < 65536 ∧ f < 4294967296 ∧ req.Version = sprintfUint16 v ∧
      req.FunctionId = (f : Int) ∧
      req.Locale.length < 65536 ∧ req.AppIdentifier.length < 65536 ∧
      req.OsVersion.length < 65536 ∧ req.Payload.length < 4294967296 ∧
      req.Payload ++ t ≠ [] ∧
      d = envelopeLayout v req.Locale req.AppIdentifier req.OsVersion f req.Payload ++ t := by
  simp only [ArpcDeserialize] at h
  split at h
  · cases h
  · rename_i vb r1 hv
    split at h
    · cases h
    · rename_i l r2 rem2 hl
      split at h
      · cases h
      · rename_i a r3 rem3 ha
        split at h
        · cases h
        · rename_i o r4 rem4 ho
          split at h
          · cases h
          · rename_i fb r5 hf
            split at h
            · cases h
            · rename_i pb r6 hp
              split at h
              · cases h
              · rename_i hchk
                split at h
                · cases h
                · rename_i p r7 hpl
                  simp only [Option.some.injEq] at h
                  subst h
                  have hv1 := (Reader.rest_length_of_Read hv).2
                  rw [NewReader_rest] at hv1
                  obtain ⟨el, _, el3, el4, el5⟩ := readPascalString_some hl (by omega)
                  obtain ⟨ea, _, ea3, ea4, ea5⟩ := readPascalString_some ha el5
                  obtain ⟨eo, _, eo3, eo4, eo5⟩ := readPascalString_some ho ea5
                  have hf1 := (Reader.rest_length_of_Read hf).2
                  have hp1 := (Reader.rest_length_of_Read hp).2
                  have hpl1 := Reader.rest_length_of_Read hpl
                  have hplt := beUint32_lt pb
                  have fv := Reader.Read_full hv (by rw [NewReader_rest]; omega)
                  have ff := Reader.Read_full hf (by omega)
                  have fp := Reader.Read_full hp (by omega)
                  have fpl := Reader.Read_full hpl (by omega)
                  rw [NewReader_rest] at fv
                  refine ⟨beUint16 vb, beUint32 fb, r7.rest, beUint16_lt vb, beUint32_lt fb,
                    rfl, rfl, by assumption, by assumption, by assumption, ?_, ?_, ?_⟩
                  · show p.length < 4294967296
                    rw [fpl.2]; exact hplt
                  · rw [← fpl.1]; exact hpl1.1
                  · simp only [envelopeLayout]
                    rw [be16_beUint16 vb fv.2, be32_beUint32 fb ff.2, fpl.2,
                      be32_beUint32 pb fp.2]
                    simp only [List.append_assoc]
                    rw [← fpl.1, ← fp.1, ← ff.1, ← eo, ← ea, ← el]
                    exact fv.1

/-- Decoding a well-formed envelope followed by `t` succeeds as soon as the
payload and `t` are not both empty. -/
theorem ArpcDeserialize_layout (v : Nat) (l a o : List Byte) (f : Nat) (p t : List Byte)
    (hv : v < 65536) (hl : l.length < 65536) (ha : a.length < 65536)
    (ho : o.length < 65536) (hf : f < 4294967296) (hp : p.length < 4294967296)
    (hne : p ++ t ≠ []) :
    ArpcDeserialize (envelopeLayout v l a o f p ++ t) =
      some ⟨sprintfUint16 v, l, a, o, (f : Int), p⟩ := by
  have hlen : ((envelopeLayout v l a o f p ++ t).length : Int) =
      16 + l.length + a.length + o.length + p.length + t.length := by
    simp [envelopeLayout, be16_length, be32_length]; omega
  have h0 : (NewReader (envelopeLayout v l a o f p ++ t)).rest =
      be16 v ++ (be16 l.length ++ (l ++ (be16 a.length ++ (a ++ (be16 o.length ++ (o ++
        (be32 f ++ (be32 p.length ++ (p ++ t))))))))) := by
    simp [NewReader_rest, envelopeLayout]
  obtain ⟨r1, e1, h1⟩ := Reader.Read_of_rest h0 (be16_length _) (by simp [be16])
  obtain ⟨r2, e2, h2⟩ := readPascalString_of_rest
    ((envelopeLayout v l a o f p ++ t).length - 2 : Int) h1 hl (by simp [be32])
    (by rw [h1, hlen]; simp [be16_length, be32_length]; omega)
  obtain ⟨r3, e3, h3⟩ := readPascalString_of_rest _ h2 ha (by simp [be32]) (by rw [h2])
  obtain ⟨r4, e4, h4⟩ := readPascalString_of_rest _ h3 ho (by simp [be32]) (by rw [h3])
  obtain ⟨r5, e5, h5⟩ := Reader.Read_of_rest h4 (be32_length _) (by simp [be32])
  obtain ⟨r6, e6, h6⟩ := Reader.Read_of_rest h5 (be32_length _) (by simp [be32])
  obtain ⟨r7, e7, h7⟩ := Reader.Read_of_rest h6 rfl hne
  simp only [ArpcDeserialize, e1, e2, e3, e4, e5, e6, beUint16_be16 _ hv, beUint32_be32 _ hf,
    beUint32_be32 _ hp, e7]
  rw [if_neg]
  simp [be32_length]

/-! ### Decimal text -/

theorem digitByte_val (d : Nat) : (digitByte d).val = 48 + d % 10 := by
  simp only [digitByte, byteOfNat_val]
  omega

theorem fmtDigits_digit (fuel n : Nat) :
    ∀ b ∈ fmtDigits fuel n, 48 ≤ b.val ∧ b.val ≤ 57 := by
  induction fuel generalizing n with
  | zero => intro b hb; simp [fmtDigits] at hb
  | succ fuel ih =>
    intro b hb
    simp only [fmtDigits] at hb
    split at hb
    · simp only [List.mem_singleton] at hb
      subst hb
      rw [digitByte_val]; omega
    · simp only [List.mem_append, List.mem_singleton] at hb
      rcases hb with hb | hb
      · exact ih _ b hb
      · subst hb
        rw [digitByte_val]; omega

theorem fmtDigits_length (fuel n : Nat) :
    (fmtDigits (fuel + 1) n).length ≤ fuel + 1 ∧ 0 < (fmtDigits (fuel + 1) n).length := by
  induction fuel generalizing n with
  | zero =>
    simp only [fmtDigits]
    split <;> simp
  | succ fuel ih =>
    rw [fmtDigits]
    split
    · simp
    · have := ih (n / 10)
      simp only [List.length_append, List.length_singleton]
      omega

theorem atoiLoop_append (xs ys : List Byte) (n : Int) :
    atoiLoop (xs ++ ys) n = (atoiLoop xs n).bind (atoiLoop ys) := by
  induction xs generalizing n with
  | nil => simp [atoiLoop]
  | cons x xs ih =>
    simp only [List.cons_append, atoiLoop]
    split
    · simp
    · exact ih _

theorem atoiLoop_digitByte (d : Nat) (n : Int) :
    atoiLoop [digitByte d] n = some (n * 10 + ((d % 10 : Nat) : Int)) := by
  simp only [atoiLoop, digitByte_val]
  have h : (48 + d % 10 + 256 - 48) % 256 = d % 10 := by omega
  rw [h, if_neg (by omega)]

theorem atoiLoop_fmtDigits (fuel n : Nat) (h : n < 10 ^ fuel) :
    atoiLoop (fmtDigits fuel n) 0 = some (n : Int) := by
  induction fuel generalizing n with
  | zero =>
    simp only [pow_zero, Nat.lt_one_iff] at h
    subst h
    rfl
  | succ fuel ih =>
    rw [fmtDigits]
    split
    · rename_i hlt
      rw [atoiLoop_digitByte, Nat.mod_eq_of_lt hlt]
      simp
    · have hdiv : n / 10 < 10 ^ fuel := by
        rw [pow_succ] at h
        omega
      rw [atoiLoop_append, ih _ hdiv, Option.some_bind, atoiLoop_digitByte]
      congr 1
      omega

/-- `strconv.Atoi` reads back what `fmt.Sprintf("%d", _)` printed for a `uint16`. -/
theorem Atoi_sprintfUint16 (v : Nat) (hv : v < 65536) :
    Atoi (sprintfUint16 v) = ((v : Int), true) := by
  have hlen := fmtDigits_length 4 v
  have hdig := fmtDigits_digit 5 v
  have hloop := atoiLoop_fmtDigits 5 v (by omega)
  simp only [sprintfUint16] at *
  generalize fmtDigits 5 v = s at *
  match s, hlen, hdig, hloop with
  | c :: rest, hlen, hdig, hloop =>
    have hc := hdig c (List.mem_cons_self _ _)
    simp only [List.length_cons] at hlen
    have h1 : ¬ c.val = 43 := by omega
    have h2 : ¬ c.val = 45 := by omega
    have h3 : 0 < rest.length + 1 ∧ rest.length + 1 < 19 := by omega
    have h4 : ¬ (rest.length + 1 < 1) := by omega
    simp only [Atoi, List.length_cons, h1, h2, h3, h4, if_true, if_false, hloop, and_self,
      or_self]

/-! ### Encoder -/

theorem putUint16_eq (n : Nat) : putUint16 (n % 65536) = be16 n := by
  simp only [putUint16, be16, List.cons.injEq, and_true, Nat.shiftRight_eq_div_pow]
  constructor <;>
  · apply Fin.ext
    simp only [byteOfNat_val]
    omega

theorem appendPascalString_eq (buf s : List Byte) :
    appendPascalString buf s = buf ++ (be16 s.length ++ s) := by
  have h := putUint16_eq s.length
  simp only [putUint16] at h
  simp only [appendPascalString, List.append_assoc, h]

theorem appendUint32_eq (buf : List Byte) (n : Nat) :
    appendUint32 buf (n : Int) = buf ++ be32 n := by
  simp only [appendUint32, be32, Int.shiftRight_eq_div_pow]
  congr 1
  simp only [List.cons.injEq, and_true]
  refine ⟨?_, ?_, ?_, ?_⟩ <;>
  · apply Fin.ext
    simp only [byteOfInt, byteOfNat_val]
    omega

theorem versionBytes_eq (z : Int) :
    [byteOfInt (z >>> (8 : Nat)), byteOfInt z] = be16 (z % 65536).toNat := by
  simp only [be16, Int.shiftRight_eq_div_pow, List.cons.injEq, and_true]
  constructor <;>
  · apply Fin.ext
    simp only [byteOfInt, byteOfNat_val]
    omega

/-- The bytes `ArpcSerialize` writes: the wire layout with the version taken
modulo 2^16 and the function-id slot always zero. -/
theorem ArpcSerialize_eq (e : ArpcRequest) :
    ArpcSerialize e =
      envelopeLayout ((Atoi e.Version).1 % 65536).toNat e.Locale e.AppIdentifier e.OsVersion 0
        e.Payload := by
  simp only [ArpcSerialize, appendPascalString_eq, appendUint32_eq, envelopeLayout,
    List.nil_append, versionBytes_eq, List.append_assoc]
  rfl

theorem envelopeLayout_length (v : Nat) (l a o : List Byte) (f : Nat) (p : List Byte) :
    (envelopeLayout v l a o f p).length = 16 + l.length + a.length + o.length + p.length := by
  simp only [envelopeLayout, List.length_append, be16_length, be32_length]
  omega

/-! ### Envelope codec: the claims -/

/-- The request of main_test.go decodes to version "1", locale "en-001_001",
application "com.apple.locationd", OS version "26.2.23C55", function id 2 and
an empty payload; its last four bytes are left unread. -/
theorem ArpcDeserialize_testRequestBytes :
    ArpcDeserialize testRequestBytes =
      some
        { Version := [0x31]
          Locale := [0x65, 0x6e, 0x2d, 0x30, 0x30, 0x31, 0x5f, 0x30, 0x30, 0x31]
          AppIdentifier := [0x63, 0x6f, 0x6d, 0x2e, 0x61, 0x70, 0x70, 0x6c, 0x65, 0x2e, 0x6c,
            0x6f, 0x63, 0x61, 0x74, 0x69, 0x6f, 0x6e, 0x64]
          OsVersion := [0x32, 0x36, 0x2e, 0x32, 0x2e, 0x32, 0x33, 0x43, 0x35, 0x35]
          FunctionId := 2
          Payload := [] } := by
  decide

/-- C1, evaluated on the code: the round trip does not reproduce the envelope.
`ArpcSerialize` writes four zero bytes where the function id belongs, so an
envelope with version "1", function id 2 and payload `07` comes back with
function id 0; and an envelope with an empty payload does not come back at
all, because the final zero-length read of the decoder hits the end of the input. -/
theorem C1_roundtrip_loses_functionId :
    ArpcDeserialize (ArpcSerialize ⟨[0x31], [], [], [], 2, [7]⟩) =
        some ⟨[0x31], [], [], [], 0, [7]⟩ ∧
      ArpcDeserialize (ArpcSerialize ⟨[0x31], [], [], [], 2, [7]⟩) ≠
        some ⟨[0x31], [], [], [], 2, [7]⟩ ∧
      ArpcDeserialize (ArpcSerialize ⟨[0x31], [], [], [], 0, []⟩) = none := by
  decide

/-- C2, evaluated on the code: a well-formed envelope whose payload is empty and
which is followed by no further byte is rejected, although the same envelope
followed by one more byte decodes to the expected fields. -/
theorem C2_empty_payload_at_end_rejected :
    ArpcDeserialize (envelopeLayout 1 [] [] [] 0 [] ++ []) = none ∧
      ArpcDeserialize (envelopeLayout 1 [] [] [] 0 [] ++ [0]) =
        some ⟨sprintfUint16 1, [], [], [], 0, []⟩ := by
  decide

/-- C3: every proper prefix of the serialization of a valid envelope (version
text that `strconv.Atoi` reads as a number in 0..65535, text fields of at most
65535 bytes, payload shorter than 2^32 bytes) is rejected by the decoder. -/
theorem C3_truncated_envelope_rejected (e : ArpcRequest) (v : Nat) (k : Nat)
    (hv : v < 65536) (hver : Atoi e.Version = ((v : Int), true))
    (hl : e.Locale.length ≤ 65535) (ha : e.AppIdentifier.length ≤ 65535)
    (ho : e.OsVersion.length ≤ 65535) (hp : e.Payload.length < 4294967296)
    (hk : k < (ArpcSerialize e).length) :
    ArpcDeserialize ((ArpcSerialize e).take k) = none := by
  cases hdec : ArpcDeserialize ((ArpcSerialize e).take k) with
  | none => rfl
  | some r =>
    exfalso
    obtain ⟨v1, f1, t, hv1, hf1, -, -, hl1, ha1, ho1, hp1, -, hd⟩ := ArpcDeserialize_some hdec
    have hser := ArpcSerialize_eq e
    rw [hver] at hser
    have hvn : ((v : Int) % 65536).toNat = v := by omega
    simp only [hvn] at hser
    -- the serialization followed by one more byte decodes in two ways
    have e1 : ArpcDeserialize (ArpcSerialize e ++ [0]) =
        some ⟨sprintfUint16 v1, r.Locale, r.AppIdentifier, r.OsVersion, (f1 : Int), r.Payload⟩ := by
      have hsplit : ArpcSerialize e ++ [0] =
          envelopeLayout v1 r.Locale r.AppIdentifier r.OsVersion f1 r.Payload ++
            (t ++ ((ArpcSerialize e).drop k ++ [0])) := by
        rw [← List.append_assoc, ← hd, ← List.append_assoc, List.take_append_drop]
      rw [hsplit]
      exact ArpcDeserialize_layout v1 _ _ _ f1 _ _ hv1 hl1 ha1 ho1 hf1 hp1 (by simp)
    have e2 : ArpcDeserialize (ArpcSerialize e ++ [0]) =
        some ⟨sprintfUint16 v, e.Locale, e.AppIdentifier, e.OsVersion, ((0 : Nat) : Int),
          e.Payload⟩ := by
      rw [hser]
      exact ArpcDeserialize_layout v _ _ _ 0 _ _ hv (by omega) (by omega) (by omega)
        (by decide) hp (by simp)
    rw [e1] at e2
    simp only [Option.some.injEq, ArpcRequest.mk.injEq] at e2
    obtain ⟨-, el, ea, eo, -, ep⟩ := e2
    have hlen1 := congrArg List.length hd
    have hlen2 := congrArg List.length hser
    rw [List.length_take, List.length_append, envelopeLayout_length, el, ea, eo, ep] at hlen1
    rw [envelopeLayout_length] at hlen2
    omega

/-- Witness of C3: the 19-byte serialization of version "1", empty text
fields and payload `07`, cut after 3 bytes. -/
theorem C3_truncated_envelope_rejected_witness :
    ArpcDeserialize ((ArpcSerialize ⟨[0x31], [], [], [], 0, [7]⟩).take 3) = none :=
  C3_truncated_envelope_rejected ⟨[0x31], [], [], [], 0, [7]⟩ 1 3 (by decide) (by decide)
    (by decide) (by decide) (by decide) (by decide) (by decide)

/-- C4: the decoder is a total function, and whenever it returns an envelope
the input starts with exactly the wire layout of that envelope (every field
read in full from the input, none padded from a short read), so the input is
at least 14 bytes plus the four variable lengths long. In particular nothing
is returned for an input the layout does not fit into. -/
theorem C4_decode_never_partial (d : List Byte) (r : ArpcRequest)
    (h : ArpcDeserialize d = some r) :
    ∃ (v f : Nat) (t : List Byte), v < 65536 ∧ f < 4294967296 ∧
      r.Version = sprintfUint16 v ∧ r.FunctionId = (f : Int) ∧
      d = be16 v ++ (be16 r.Locale.length ++ (r.Locale ++
        (be16 r.AppIdentifier.length ++ (r.AppIdentifier ++
        (be16 r.OsVersion.length ++ (r.OsVersion ++
        (be32 f ++ (be32 r.Payload.length ++ r.Payload)))))))) ++ t ∧
      r.Locale.length < 65536 ∧ r.AppIdentifier.length < 65536 ∧
      r.OsVersion.length < 65536 ∧ r.Payload.length < 4294967296 ∧
      14 + r.Locale.length + r.AppIdentifier.length + r.OsVersion.length
        + r.Payload.length ≤ d.length := by
  obtain ⟨v, f, t, hv, hf, hver, hfid, hl, ha, ho, hp, -, hd⟩ := ArpcDeserialize_some h
  refine ⟨v, f, t, hv, hf, hver, hfid, hd, hl, ha, ho, hp, ?_⟩
  have hlen := congrArg List.length hd
  rw [List.length_append, envelopeLayout_length] at hlen
  omega

/-- Witness of C4: the request of main_test.go. -/
theorem C4_decode_never_partial_witness :
    ∃ (v f : Nat) (t : List Byte), v < 65536 ∧ f < 4294967296 ∧
      [0x31] = sprintfUint16 v ∧ (2 : Int) = (f : Int) ∧
      testRequestBytes = be16 v ++ (be16 10 ++ (
        [0x65, 0x6e, 0x2d, 0x30, 0x30, 0x31, 0x5f, 0x30, 0x30, 0x31] ++
        (be16 19 ++ ([0x63, 0x6f, 0x6d, 0x2e, 0x61, 0x70, 0x70, 0x6c, 0x65, 0x2e, 0x6c,
            0x6f, 0x63, 0x61, 0x74, 0x69, 0x6f, 0x6e, 0x64] ++
        (be16 10 ++ ([0x32, 0x36, 0x2e, 0x32, 0x2e, 0x32, 0x33, 0x43, 0x35, 0x35] ++
        (be32 f ++ (be32 0 ++ [])))))))) ++ t ∧
      10 < 65536 ∧ 19 < 65536 ∧ 10 < 65536 ∧ 0 < 4294967296 ∧
      14 + 10 + 19 + 10 + 0 ≤ testRequestBytes.length :=
  C4_decode_never_partial testRequestBytes
    { Version := [0x31]
      Locale := [0x65, 0x6e, 0x2d, 0x30, 0x30, 0x31, 0x5f, 0x30, 0x30, 0x31]
      AppIdentifier := [0x63, 0x6f, 0x6d, 0x2e, 0x61, 0x70, 0x70, 0x6c, 0x65, 0x2e, 0x6c,
        0x6f, 0x63, 0x61, 0x74, 0x69, 0x6f, 0x6e, 0x64]
      OsVersion := [0x32, 0x36, 0x2e, 0x32, 0x2e, 0x32, 0x33, 0x43, 0x35, 0x35]
      FunctionId := 2
      Payload := [] } (by decide)

/-- C5, evaluated on the code: the function id is not carried in its slot.
For version "1", function id 2 and payload `07` the encoder emits the layout
with function id 0, which differs from the layout with function id 2. -/
theorem C5_encoder_zeroes_functionId :
    ArpcSerialize ⟨[0x31], [], [], [], 2, [7]⟩ = envelopeLayout 1 [] [] [] 0 [7] ∧
      ArpcSerialize ⟨[0x31], [], [], [], 2, [7]⟩ ≠ envelopeLayout 1 [] [] [] 2 [7] := by
  decide

/-! ### Response framer: the claims -/

/-- The framing step never fails: once `proto.Marshal` has produced `b`, the
result is the header, the low 16 bits of the length, and `b`. -/
theorem SerializeProto_framed {M : Type} (Marshal : M → Option (List Byte)) (p : M)
    (h b : List Byte) (hb : Marshal p = some b) :
    SerializeProto Marshal (some p) (some h) = SerializeResult.ok (h ++ (be16 b.length ++ b)) := by
  simp only [SerializeProto, hb, putUint16_eq]

/-- C6: for a non-nil header `h` and an encoded payload `b` of at most 65535
bytes the framing step of `SerializeProto` returns `h ‖ be16(|b|) ‖ b`; with
the fixed header `00 01 00 00 00 01 00 00` the result is `|b| + 10` bytes long,
starts with the header, carries `|b|` big-endian in the next two bytes and
ends with `b`. -/
theorem C6_response_framing_layout {M : Type} (Marshal : M → Option (List Byte)) (p : M)
    (h b : List Byte) (hb : Marshal p = some b) (hlen : b.length ≤ 65535) :
    SerializeProto Marshal (some p) (some h) = SerializeResult.ok (h ++ (be16 b.length ++ b)) ∧
      ∃ r, SerializeProto Marshal (some p) (some initialBytes) = SerializeResult.ok r ∧
        r.length = b.length + 10 ∧ r.take 8 = [0, 1, 0, 0, 0, 1, 0, 0] ∧
        beUint16 ((r.drop 8).take 2) = b.length ∧ r.drop 10 = b := by
  refine ⟨SerializeProto_framed Marshal p h b hb, initialBytes ++ (be16 b.length ++ b),
    SerializeProto_framed Marshal p initialBytes b hb, ?_, ?_, ?_, ?_⟩
  · simp only [initialBytes, List.length_append, be16_length, List.length_cons, List.length_nil]
    omega
  · rfl
  · exact beUint16_be16 b.length (by omega)
  · rfl

/-- Witness of C6: a three-byte payload behind the fixed header. -/
theorem C6_response_framing_layout_witness :
    SerializeProto (fun _ : Unit => some [1, 2, 3]) (some ()) (some [0, 1, 0, 0, 0, 1, 0, 0]) =
        SerializeResult.ok
          ([0, 1, 0, 0, 0, 1, 0, 0] ++ (be16 ([1, 2, 3] : List Byte).length ++ [1, 2, 3])) ∧
      ∃ r, SerializeProto (fun _ : Unit => some [1, 2, 3]) (some ()) (some initialBytes) =
          SerializeResult.ok r ∧
        r.length = ([1, 2, 3] : List Byte).length + 10 ∧ r.take 8 = [0, 1, 0, 0, 0, 1, 0, 0] ∧
        beUint16 ((r.drop 8).take 2) = ([1, 2, 3] : List Byte).length ∧ r.drop 10 = [1, 2, 3] :=
  C6_response_framing_layout (fun _ : Unit => some [1, 2, 3]) () [0, 1, 0, 0, 0, 1, 0, 0]
    [1, 2, 3] rfl (by decide)

/-- C7, evaluated on the code: a payload of 65536 bytes is framed without any
error, and the frame carries the length field `00 00`. -/
theorem C7_overflow_frame_emitted :
    SerializeProto (fun _ : Unit => some (List.replicate 65536 (0 : Byte))) (some ())
        (some initialBytes) =
      SerializeResult.ok (initialBytes ++ ([0, 0] ++ List.replicate 65536 (0 : Byte))) := by
  simp only [SerializeProto, List.length_replicate]
  rfl

/-- C8 fails as stated: for the payload `01 02 03` the frame is
`00 01 00 00 00 01 00 00 00 03 01 02 03`; bytes 7 and 8 read as 0, while the
length minus 9 is 4. -/
theorem C8_length_field_at_7_counterexample :
    SerializeProto (fun _ : Unit => some [1, 2, 3]) (some ()) (some initialBytes) =
        SerializeResult.ok [0, 1, 0, 0, 0, 1, 0, 0, 0, 3, 1, 2, 3] ∧
      ((([0, 1, 0, 0, 0, 1, 0, 0, 0, 3, 1, 2, 3] : List Byte).getD 7 0).val : Int) * 256
          + ((([0, 1, 0, 0, 0, 1, 0, 0, 0, 3, 1, 2, 3] : List Byte).getD 8 0).val : Int) ≠
        (([0, 1, 0, 0, 0, 1, 0, 0, 0, 3, 1, 2, 3] : List Byte).length : Int) - 9 := by
  decide

/-- C8 as amended: for an encoded payload of at most 65535 bytes framed behind
the 8-byte header, the frame `r` is produced and its length field sits at
bytes 8 and 9: `r[8] * 256 + r[9] = len(r) - 10`. -/
theorem C8_length_field_at_8 {M : Type} (Marshal : M → Option (List Byte)) (p : M)
    (b : List Byte) (hb : Marshal p = some b) (hlen : b.length ≤ 65535) :
    ∃ r, SerializeProto Marshal (some p) (some initialBytes) = SerializeResult.ok r ∧
      ((r.getD 8 0).val : Int) * 256 + ((r.getD 9 0).val : Int) = (r.length : Int) - 10 := by
  refine ⟨initialBytes ++ (be16 b.length ++ b),
    SerializeProto_framed Marshal p initialBytes b hb, ?_⟩
  have h := beUint16_be16 b.length (by omega)
  simp only [beUint16, be16, List.getD_cons_zero, List.getD_cons_succ] at h
  simp only [initialBytes, be16, List.cons_append, List.nil_append, List.getD_cons_zero,
    List.getD_cons_succ, List.length_cons]
  omega

/-- Witness of C8 as amended: the three-byte payload `01 02 03`. -/
theorem C8_length_field_at_8_witness :
    ∃ r, SerializeProto (fun _ : Unit => some [1, 2, 3]) (some ()) (some initialBytes) =
        SerializeResult.ok r ∧
      ((r.getD 8 0).val : Int) * 256 + ((r.getD 9 0).val : Int) = (r.length : Int) - 10 :=
  C8_length_field_at_8 (fun _ : Unit => some [1, 2, 3]) () [1, 2, 3] rfl (by decide)

/-! ### Rewrite pipeline: the claims -/

theorem spoofDevice_Location (lat lon : Int) (device : WifiDevice) :
    ∃ location, (spoofDevice lat lon device).Location = some location ∧
      location.Latitude = some lat ∧ location.Longitude = some lon ∧
      location.HorizontalAccuracy = some 39 ∧ location.VerticalAccuracy = some 1000 ∧
      location.Altitude = some 530 ∧ location.UnknownValue4 = some 3 ∧
      location.MotionActivityType = some 63 ∧ location.MotionActivityConfidence = some 467 :=
  ⟨_, rfl, rfl, rfl, rfl, rfl, rfl, rfl, rfl, rfl⟩

/-- The forged response of `handleLocationRequest`, when there is one, frames
the encoding of the mutated and sanitized message behind the fixed header. -/
theorem handleLocationRequest_response {F : Type} (env : Collaborators F)
    (spoofLat spoofLon : F) (req : Request) (resp : Response)
    (h : (handleLocationRequest env spoofLat spoofLon req).2 = some resp) :
    ∃ arpc wloc b, req.Body.readFails = false ∧
      ArpcDeserialize req.Body.unread = some arpc ∧
      env.Unmarshal arpc.Payload = some wloc ∧
      env.Marshal (clearSummaryFields (spoofWifiDevices (env.IntFromCoord spoofLat)
        (env.IntFromCoord spoofLon) wloc)) = some b ∧
      resp.Body = initialBytes ++ (be16 b.length ++ b) ∧
      resp.StatusCode = 200 ∧ resp.ContentLength = (resp.Body.length : Int) := by
  simp only [handleLocationRequest] at h
  split at h
  · cases h
  · rename_i herr
    split at h
    · cases h
    · rename_i arpc harpc
      split at h
      · cases h
      · rename_i wloc hwloc
        cases hm : env.Marshal (clearSummaryFields (spoofWifiDevices
            (env.IntFromCoord spoofLat) (env.IntFromCoord spoofLon) wloc)) with
        | none =>
          simp only [SerializeProto, hm] at h
          cases h
        | some b =>
          rw [SerializeProto_framed env.Marshal _ initialBytes b hm] at h
          simp only [Option.some.injEq] at h
          subst h
          exact ⟨arpc, wloc, b, by simpa using herr, harpc, hwloc, hm, rfl, rfl, rfl⟩

/-- C9: the mutation step of `handleLocationRequest` keeps every wifi
observation of the message, with or without a BSSID and whatever its prior
location, in place and with its BSSID, and gives each of them a location
whose latitude and longitude are the converted spoof coordinates and whose
six auxiliary fields are the fixed constants, all present; and the message a
forged response encodes is the decoded message after exactly this step and
the sanitize step. -/
theorem C9_mutation_overwrites_every_observation {F : Type} (env : Collaborators F)
    (spoofLat spoofLon : F) (wloc : AppleWLoc) :
    (spoofWifiDevices (env.IntFromCoord spoofLat) (env.IntFromCoord spoofLon)
        wloc).WifiDevices =
      wloc.WifiDevices.map (fun device =>
        { Bssid := device.Bssid
          Location := some
            { Latitude := some (env.IntFromCoord spoofLat)
              Longitude := some (env.IntFromCoord spoofLon)
              HorizontalAccuracy := some 39
              VerticalAccuracy := some 1000
              Altitude := some 530
              UnknownValue4 := some 3
              MotionActivityType := some 63
              MotionActivityConfidence := some 467 } }) ∧
    (∀ device ∈ wloc.WifiDevices,
      ∃ spoofed ∈ (spoofWifiDevices (env.IntFromCoord spoofLat) (env.IntFromCoord spoofLon)
          wloc).WifiDevices,
        spoofed.Bssid = device.Bssid ∧
        ∃ location, spoofed.Location = some location ∧
          location.Latitude = some (env.IntFromCoord spoofLat) ∧
          location.Longitude = some (env.IntFromCoord spoofLon) ∧
          location.HorizontalAccuracy = some 39 ∧ location.VerticalAccuracy = some 1000 ∧
          location.Altitude = some 530 ∧ location.UnknownValue4 = some 3 ∧
          location.MotionActivityType = some 63 ∧
          location.MotionActivityConfidence = some 467) ∧
    (∀ device ∈ (spoofWifiDevices (env.IntFromCoord spoofLat) (env.IntFromCoord spoofLon)
        wloc).WifiDevices,
      ∃ location, device.Location = some location ∧
        location.Latitude = some (env.IntFromCoord spoofLat) ∧
        location.Longitude = some (env.IntFromCoord spoofLon) ∧
        location.HorizontalAccuracy = some 39 ∧ location.VerticalAccuracy = some 1000 ∧
        location.Altitude = some 530 ∧ location.UnknownValue4 = some 3 ∧
        location.MotionActivityType = some 63 ∧
        location.MotionActivityConfidence = some 467) ∧
    (∀ (req : Request) (resp : Response),
      (handleLocationRequest env spoofLat spoofLon req).2 = some resp →
      ∃ arpc decoded b, ArpcDeserialize req.Body.unread = some arpc ∧
        env.Unmarshal arpc.Payload = some decoded ∧
        env.Marshal (clearSummaryFields (spoofWifiDevices (env.IntFromCoord spoofLat)
          (env.IntFromCoord spoofLon) decoded)) = some b ∧
        resp.Body = initialBytes ++ (be16 b.length ++ b)) := by
  refine ⟨?_, ?_, ?_, ?_⟩
  · simp only [spoofWifiDevices]
    apply List.map_congr_left
    intro device _
    cases hloc : device.Location <;> simp [spoofDevice, hloc]
  · intro device hdev
    refine ⟨spoofDevice (env.IntFromCoord spoofLat) (env.IntFromCoord spoofLon) device,
      ?_, rfl, spoofDevice_Location _ _ device⟩
    simp only [spoofWifiDevices]
    exact List.mem_map_of_mem _ hdev
  · intro device hdev
    simp only [spoofWifiDevices, List.mem_map] at hdev
    obtain ⟨d0, -, rfl⟩ := hdev
    exact spoofDevice_Location _ _ d0
  · intro req resp h
    obtain ⟨arpc, decoded, b, -, h1, h2, h3, h4, -, -⟩ :=
      handleLocationRequest_response env spoofLat spoofLon req resp h
    exact ⟨arpc, decoded, b, h1, h2, h3, h4⟩

set_option maxRecDepth 100000 in
/-- Witness of C9: a message with two observations, the first with a BSSID
and a prior location, the second with neither, rewritten with the spoof
coordinates 51.510420 and -3.218306 of main_test.go (as `float64` values):
both are kept, in order, and overwritten with 5151042000 and -321830600. -/
theorem C9_mutation_overwrites_every_observation_witness :
    (spoofWifiDevices (IntFromCoord ⟨7249447134928055, -47⟩)
        (IntFromCoord ⟨-7246980851182116, -51⟩)
        ⟨[⟨[0x61, 0x61], some { Latitude := some 1, Altitude := some 7 }⟩, ⟨[], none⟩],
          some 1, none, some 2⟩).WifiDevices =
      [⟨[0x61, 0x61], some ⟨some 5151042000, some (-321830600), some 39, some 1000, some 530,
          some 3, some 63, some 467⟩⟩,
        ⟨[], some ⟨some 5151042000, some (-321830600), some 39, some 1000, some 530,
          some 3, some 63, some 467⟩⟩] :=
  ((C9_mutation_overwrites_every_observation
    (⟨fun _ => none, fun _ => none, IntFromCoord⟩ : Collaborators F64)
    ⟨7249447134928055, -47⟩ ⟨-7246980851182116, -51⟩
    ⟨[⟨[0x61, 0x61], some { Latitude := some 1, Altitude := some 7 }⟩, ⟨[], none⟩],
      some 1, none, some 2⟩).1).trans (by decide)

/-- C10: the mutation and sanitize steps keep the number of wifi observations,
their order and their BSSIDs, and leave every observation with a location. -/
theorem C10_rewrite_preserves_devices (lat lon : Int) (wloc : AppleWLoc) :
    (clearSummaryFields (spoofWifiDevices lat lon wloc)).WifiDevices.length =
        wloc.WifiDevices.length ∧
      (clearSummaryFields (spoofWifiDevices lat lon wloc)).WifiDevices.map WifiDevice.Bssid =
        wloc.WifiDevices.map WifiDevice.Bssid ∧
      (clearSummaryFields (spoofWifiDevices lat lon wloc)).WifiDevices.all
        (fun device => device.Location.isSome) = true := by
  refine ⟨?_, ?_, ?_⟩
  · simp [clearSummaryFields, spoofWifiDevices]
  · simp only [clearSummaryFields, spoofWifiDevices, List.map_map]
    rfl
  · simp only [clearSummaryFields, spoofWifiDevices, List.all_eq_true, List.mem_map]
    rintro device ⟨d0, -, rfl⟩
    rfl

/-! ### Envelope codec: the round trip that holds -/

/-- C16: an envelope whose version is the canonical decimal text of a number
in 0..65535, whose text fields have at most 65535 bytes, whose function id is
0 and whose payload is non-empty and shorter than 2^32 bytes survives
serialization followed by deserialization unchanged. -/
theorem C16_roundtrip_supported (e : ArpcRequest) (v : Nat) (hv : v < 65536)
    (hver : e.Version = sprintfUint16 v)
    (hl : e.Locale.length ≤ 65535) (ha : e.AppIdentifier.length ≤ 65535)
    (ho : e.OsVersion.length ≤ 65535) (hf : e.FunctionId = 0)
    (hne : e.Payload ≠ []) (hp : e.Payload.length < 4294967296) :
    ArpcDeserialize (ArpcSerialize e) = some e := by
  have hser := ArpcSerialize_eq e
  rw [hver, Atoi_sprintfUint16 v hv] at hser
  have hvn : ((v : Int) % 65536).toNat = v := by omega
  simp only [hvn] at hser
  have hdec := ArpcDeserialize_layout v e.Locale e.AppIdentifier e.OsVersion 0 e.Payload []
    hv (by omega) (by omega) (by omega) (by decide) hp (by simpa using hne)
  rw [List.append_nil] at hdec
  rw [hser, hdec]
  cases e
  simp only [Option.some.injEq, ArpcRequest.mk.injEq, and_true, true_and] at hver hf ⊢
  exact ⟨hver.symm, by simp [hf]⟩

/-- Witness of C16: version "1", the text fields of the request of
main_test.go shortened to "en", "a" and "26", function id 0, payload `0a 00`. -/
theorem C16_roundtrip_supported_witness :
    ArpcDeserialize (ArpcSerialize ⟨[0x31], [0x65, 0x6e], [0x61], [0x32, 0x36], 0, [0x0a, 0]⟩) =
      some ⟨[0x31], [0x65, 0x6e], [0x61], [0x32, 0x36], 0, [0x0a, 0]⟩ :=
  C16_roundtrip_supported ⟨[0x31], [0x65, 0x6e], [0x61], [0x32, 0x36], 0, [0x0a, 0]⟩ 1
    (by decide) (by decide) (by decide) (by decide) (by decide) rfl (by decide) (by decide)

/-! ### Rewrite pipeline: summary fields and fail-open -/

/-- C11: whenever `handleLocationRequest` emits a response, the message whose
encoding is framed into the response body has its three summary fields
absent, whatever they were in the decoded input; and the sanitize step clears
them in every message. -/
theorem C11_summary_fields_cleared {F : Type} (env : Collaborators F)
    (spoofLat spoofLon : F) (req : Request) (resp : Response)
    (h : (handleLocationRequest env spoofLat spoofLon req).2 = some resp) :
    (∃ message b, env.Marshal message = some b ∧
        resp.Body = initialBytes ++ (be16 b.length ++ b) ∧
        message.NumCellResults = none ∧ message.NumWifiResults = none ∧
        message.DeviceType = none) ∧
      ∀ (lat lon : Int) (wloc : AppleWLoc),
        (clearSummaryFields (spoofWifiDevices lat lon wloc)).NumCellResults = none ∧
        (clearSummaryFields (spoofWifiDevices lat lon wloc)).NumWifiResults = none ∧
        (clearSummaryFields (spoofWifiDevices lat lon wloc)).DeviceType = none := by
  obtain ⟨arpc, wloc, b, -, -, -, hm, hbody, -, -⟩ :=
    handleLocationRequest_response env spoofLat spoofLon req resp h
  exact ⟨⟨_, b, hm, hbody, rfl, rfl, rfl⟩, fun _ _ _ => ⟨rfl, rfl, rfl⟩⟩

/-- Witness of C11: the request of main_test.go, a decoder that returns one
observation and all three summary fields present, and an encoder that
returns the single byte `12`. -/
theorem C11_summary_fields_cleared_witness :
    (∃ message b,
        (⟨fun _ => some ⟨[⟨[], none⟩], some 1, some 2, some 3⟩, fun _ => some [0x12],
          fun _ => 0⟩ : Collaborators Unit).Marshal message = some b ∧
        (⟨200, ascii "200 OK", ascii "HTTP/1.1", 1, 1,
          [(ascii "Content-Type", ascii "application/octet-stream")],
          [0, 1, 0, 0, 0, 1, 0, 0, 0, 1, 0x12], 11⟩ : Response).Body =
          initialBytes ++ (be16 b.length ++ b) ∧
        message.NumCellResults = none ∧ message.NumWifiResults = none ∧
        message.DeviceType = none) ∧
      ∀ (lat lon : Int) (wloc : AppleWLoc),
        (clearSummaryFields (spoofWifiDevices lat lon wloc)).NumCellResults = none ∧
        (clearSummaryFields (spoofWifiDevices lat lon wloc)).NumWifiResults = none ∧
        (clearSummaryFields (spoofWifiDevices lat lon wloc)).DeviceType = none :=
  C11_summary_fields_cleared
    (⟨fun _ => some ⟨[⟨[], none⟩], some 1, some 2, some 3⟩, fun _ => some [0x12],
      fun _ => 0⟩ : Collaborators Unit)
    () () ⟨ascii "gs-loc.apple.com", ascii "/clls/wloc", ascii "POST",
      ⟨testRequestBytes, false, false⟩⟩
    ⟨200, ascii "200 OK", ascii "HTTP/1.1", 1, 1,
      [(ascii "Content-Type", ascii "application/octet-stream")],
      [0, 1, 0, 0, 0, 1, 0, 0, 0, 1, 0x12], 11⟩
    (by decide)

/-- C12, evaluated on the code: for the one-byte body `00`, on which
`ArpcDeserialize` fails, `handleLocationRequest` returns no response, but the
request it hands back has an empty, closed body instead of the original one. -/
theorem C12_handed_back_request_body_drained {F : Type} (env : Collaborators F)
    (spoofLat spoofLon : F) :
    ArpcDeserialize [0] = none ∧
      handleLocationRequest env spoofLat spoofLon
          ⟨ascii "gs-loc.apple.com", ascii "/clls/wloc", ascii "POST", ⟨[0], false, false⟩⟩ =
        (some ⟨ascii "gs-loc.apple.com", ascii "/clls/wloc", ascii "POST", ⟨[], false, true⟩⟩,
          none) ∧
      (⟨ascii "gs-loc.apple.com", ascii "/clls/wloc", ascii "POST", ⟨[], false, true⟩⟩ :
          Request) ≠
        ⟨ascii "gs-loc.apple.com", ascii "/clls/wloc", ascii "POST", ⟨[0], false, false⟩⟩ := by
  refine ⟨by decide, ?_, by decide⟩
  have hd : ArpcDeserialize [0] = none := by decide
  simp [handleLocationRequest, hd]

/-! ### Interception router: the claims -/

theorem stringsSplit_head (sep : Byte) (s : List Byte) :
    (stringsSplit sep s).headD [] = s.takeWhile (fun c => decide (c ≠ sep)) := by
  induction s with
  | nil => rfl
  | cons c rest ih =>
    simp only [stringsSplit]
    by_cases hc : c = sep
    · simp [hc]
    · simp only [if_neg hc]
      rw [List.takeWhile_cons_of_pos (by simpa using hc), ← ih]
      cases stringsSplit sep rest <;> rfl

/-- C13: the CONNECT handler hands the target back unchanged and chooses the
MITM action exactly when the text before the first `:` of the target is
"gs-loc.apple.com" or "gs-loc-cn.apple.com"; for every other target it chooses
the tunnel action. -/
theorem C13_connect_routing (host : List Byte) :
    (customMitmHandler host).2 = host ∧
      ((customMitmHandler host).1 = ConnectAction.customCaMitm ↔
        (host.takeWhile (fun c => decide (c ≠ 58)) = ascii "gs-loc.apple.com" ∨
          host.takeWhile (fun c => decide (c ≠ 58)) = ascii "gs-loc-cn.apple.com")) ∧
      ((customMitmHandler host).1 = ConnectAction.OkConnect ↔
        ¬ (host.takeWhile (fun c => decide (c ≠ 58)) = ascii "gs-loc.apple.com" ∨
          host.takeWhile (fun c => decide (c ≠ 58)) = ascii "gs-loc-cn.apple.com")) := by
  simp only [customMitmHandler, stringsSplit_head]
  split <;> simp_all

/-- C14: the location handler runs the rewrite pipeline on a request exactly
when its host is one of the two location-service hostnames, its path is
"/clls/wloc" and its method is "POST"; every other request is returned as it
is, with no response. -/
theorem C14_request_trigger {F : Type} (env : Collaborators F) (spoofLat spoofLon : F)
    (req : Request) :
    setupLocationSpoofing env spoofLat spoofLon req =
      if (req.Host = ascii "gs-loc.apple.com" ∨ req.Host = ascii "gs-loc-cn.apple.com") ∧
          req.Path = ascii "/clls/wloc" ∧ req.Method = ascii "POST" then
        handleLocationRequest env spoofLat spoofLon req
      else (some req, none) := by
  simp only [setupLocationSpoofing]
  split_ifs <;> simp_all

/-! ### Zigzag -/

theorem Int_xor_zero (x : Int) : Int.xor x 0 = x := by
  cases x <;> simp [Int.xor]

theorem Int_xor_neg_one (x : Int) : Int.xor x (-1) = -x - 1 := by
  cases x with
  | ofNat m =>
    show Int.xor (Int.ofNat m) (Int.negSucc 0) = _
    simp only [Int.xor, Nat.xor_zero, Int.negSucc_eq, Int.ofNat_eq_coe]
    omega
  | negSucc m =>
    show Int.xor (Int.negSucc m) (Int.negSucc 0) = _
    simp only [Int.xor, Nat.xor_zero, Int.negSucc_eq, Int.ofNat_eq_coe]
    omega

theorem encodeZigzag_nonneg (n : Int) (h0 : 0 ≤ n) (h1 : n < 9223372036854775808) :
    (encodeZigzag n : Int) = 2 * n := by
  simp only [encodeZigzag, if_pos h0, uint64OfInt, Nat.shiftLeft_eq]
  omega

theorem encodeZigzag_neg (n : Int) (h0 : -9223372036854775808 ≤ n) (h1 : n < 0) :
    (encodeZigzag n : Int) = -2 * n - 1 := by
  simp only [encodeZigzag, if_neg (not_le.mpr h1), uint64OfInt, wrapInt64]
  omega

theorem zigzagStandard_nonneg (n : Int) (h0 : 0 ≤ n) (h1 : n < 9223372036854775808) :
    (zigzagStandard n : Int) = 2 * n := by
  have hs : n >>> (63 : Nat) = 0 := by
    rw [Int.shiftRight_eq_div_pow]
    omega
  simp only [zigzagStandard, hs, Int_xor_zero, uint64OfInt, wrapInt64]
  omega

theorem zigzagStandard_neg (n : Int) (h0 : -9223372036854775808 ≤ n) (h1 : n < 0) :
    (zigzagStandard n : Int) = -2 * n - 1 := by
  have hs : n >>> (63 : Nat) = -1 := by
    rw [Int.shiftRight_eq_div_pow]
    omega
  simp only [zigzagStandard, hs, Int_xor_neg_one, uint64OfInt, wrapInt64]
  omega

/-- C18: on every `int64` value `encodeZigzag` agrees with the standard
formula `(n << 1) XOR (n >> 63)` read as a `uint64`; it is `2n` for `n ≥ 0`
and `-2n - 1` for `n < 0` (2^64 - 1 for the smallest `int64`), and it is
injective on `int64`. -/
theorem C18_zigzag_standard (n : Int) (hlo : -9223372036854775808 ≤ n)
    (hhi : n < 9223372036854775808) :
    encodeZigzag n = zigzagStandard n ∧
      (encodeZigzag n : Int) = (if 0 ≤ n then 2 * n else -2 * n - 1) ∧
      encodeZigzag n < 18446744073709551616 ∧
      encodeZigzag (-9223372036854775808) = 18446744073709551615 ∧
      ∀ m : Int, -9223372036854775808 ≤ m → m < 9223372036854775808 →
        encodeZigzag n = encodeZigzag m → n = m := by
  have key : ∀ k : Int, -9223372036854775808 ≤ k → k < 9223372036854775808 →
      (encodeZigzag k : Int) = (if 0 ≤ k then 2 * k else -2 * k - 1) := by
    intro k h0 h1
    split
    · exact encodeZigzag_nonneg k (by assumption) h1
    · exact encodeZigzag_neg k h0 (by omega)
  have hn := key n hlo hhi
  refine ⟨?_, hn, ?_, by decide, ?_⟩
  · by_cases h : 0 ≤ n
    · have h2 := zigzagStandard_nonneg n h hhi
      rw [if_pos h] at hn
      omega
    · have h2 := zigzagStandard_neg n hlo (by omega)
      rw [if_neg h] at hn
      omega
  · split at hn <;> omega
  · intro m hm0 hm1 heq
    have hm := key m hm0 hm1
    rw [← heq] at hm
    split at hn <;> split at hm <;> omega

/-- Witness of C18: the smallest `int64`. -/
theorem C18_zigzag_standard_witness :
    encodeZigzag (-9223372036854775808) = zigzagStandard (-9223372036854775808) ∧
      (encodeZigzag (-9223372036854775808) : Int) =
        (if (0 : Int) ≤ -9223372036854775808 then 2 * (-9223372036854775808)
          else -2 * (-9223372036854775808) - 1) ∧
      encodeZigzag (-9223372036854775808) < 18446744073709551616 ∧
      encodeZigzag (-9223372036854775808) = 18446744073709551615 ∧
      ∀ m : Int, -9223372036854775808 ≤ m → m < 9223372036854775808 →
        encodeZigzag (-9223372036854775808) = encodeZigzag m → -9223372036854775808 = m :=
  C18_zigzag_standard (-9223372036854775808) (by decide) (by decide)

/-! ### Varints -/

set_option maxRecDepth 100000 in
theorem byte_or_continuation :
    ∀ x : Byte, (x.val ||| 128) % 256 = x.val ||| 128 ∧
      (x.val ||| 128) &&& 127 = x.val % 128 ∧ (x.val ||| 128) &&& 128 ≠ 0 := by
  decide

set_option maxRecDepth 100000 in
theorem byte_final :
    ∀ x : Byte, x.val < 128 → x.val &&& 127 = x.val ∧ x.val &&& 128 = 0 := by
  decide

theorem appendVarint_unfold (buf : List Byte) (v : Nat) :
    appendVarint buf v =
      if v ≥ 128 then appendVarint (buf ++ [byteOfNat ((byteOfNat v).val ||| 128)]) (v >>> 7)
      else buf ++ [byteOfNat v] := by
  rw [appendVarint]

theorem appendVarint_eq_append (buf : List Byte) (v : Nat) :
    appendVarint buf v = buf ++ appendVarint [] v := by
  induction v using Nat.strong_induction_on generalizing buf with
  | _ v ih =>
    rw [appendVarint_unfold buf v, appendVarint_unfold [] v]
    split
    · rename_i hge
      have hlt : v >>> 7 < v := by
        rw [Nat.shiftRight_eq_div_pow]
        omega
      rw [ih _ hlt (buf ++ _), ih _ hlt ([] ++ _)]
      simp
    · simp

theorem appendVarint_nil_small (v : Nat) (h : v < 128) : appendVarint [] v = [byteOfNat v] := by
  rw [appendVarint_unfold, if_neg (by omega)]
  rfl

theorem appendVarint_nil_large (v : Nat) (h : 128 ≤ v) :
    appendVarint [] v = byteOfNat ((byteOfNat v).val ||| 128) :: appendVarint [] (v / 128) := by
  rw [appendVarint_unfold, if_pos h, appendVarint_eq_append, Nat.shiftRight_eq_div_pow]
  rfl

theorem appendVarint_length (k v : Nat) (h : v < 2 ^ (7 * (k + 1))) :
    1 ≤ (appendVarint [] v).length ∧ (appendVarint [] v).length ≤ k + 1 := by
  induction k generalizing v with
  | zero =>
    rw [appendVarint_nil_small v (by simpa using h)]
    simp
  | succ k ih =>
    by_cases hv : v < 128
    · rw [appendVarint_nil_small v hv]
      simp
    · rw [appendVarint_nil_large v (by omega)]
      have hdiv : v / 128 < 2 ^ (7 * (k + 1)) := by
        have hp : 2 ^ (7 * (k + 1 + 1)) = 128 * 2 ^ (7 * (k + 1)) := by
          rw [show 7 * (k + 1 + 1) = 7 + 7 * (k + 1) by ring, pow_add]
          norm_num
        rw [hp] at h
        exact Nat.div_lt_of_lt_mul h
      have := ih (v / 128) hdiv
      simp only [List.length_cons]
      omega

theorem lor_shift_eq_add (a d s : Nat) (ha : a < 2 ^ s)
    (hlt : d * 2 ^ s < 18446744073709551616) :
    a ||| ((d <<< s) % 18446744073709551616) = a + d * 2 ^ s := by
  rw [Nat.shiftLeft_eq, Nat.mod_eq_of_lt hlt, Nat.lor_comm, Nat.mul_comm d,
    ← Nat.mul_add_lt_is_or ha, Nat.add_comm]

/-- Reading back an appended varint: the loop of `readVarint`, started on
the bytes `appendVarint` wrote for `v` with accumulator `a` below `2 ^ s`,
stops after exactly those bytes with the value `a + v * 2 ^ s`. -/
theorem readVarintLoop_appendVarint (v : Nat) :
    ∀ (a s i : Nat) (post : List Byte), a < 2 ^ s →
      a + v * 2 ^ s < 18446744073709551616 →
      readVarintLoop (appendVarint [] v ++ post) a s i =
        (a + v * 2 ^ s, i + (appendVarint [] v).length, true) := by
  induction v using Nat.strong_induction_on with
  | _ v ih =>
    intro a s i post ha hbound
    have hpos : 0 < 2 ^ s := Nat.two_pow_pos s
    by_cases hv : v < 128
    · rw [appendVarint_nil_small v hv]
      have hval : (byteOfNat v).val = v := by
        rw [byteOfNat_val]; omega
      have hb := byte_final (byteOfNat v) (by omega)
      rw [hval] at hb
      simp only [List.singleton_append, readVarintLoop, hval, hb.1, hb.2, if_true,
        List.length_singleton]
      rw [lor_shift_eq_add a v s ha (by omega)]
    · have hge : 128 ≤ v := by omega
      rw [appendVarint_nil_large v hge]
      have hb := byte_or_continuation (byteOfNat v)
      have hval : (byteOfNat ((byteOfNat v).val ||| 128)).val = (byteOfNat v).val ||| 128 := by
        rw [byteOfNat_val]; exact hb.1
      have hmod : (byteOfNat v).val % 128 = v % 128 := by
        rw [byteOfNat_val]; omega
      have hsplit : v * 2 ^ s = (v % 128) * 2 ^ s + (v / 128) * 2 ^ (s + 7) := by
        have hv2 : v = v % 128 + v / 128 * 128 := by omega
        calc v * 2 ^ s = (v % 128 + v / 128 * 128) * 2 ^ s := by rw [← hv2]
          _ = (v % 128) * 2 ^ s + (v / 128) * 2 ^ (s + 7) := by
            rw [pow_add]; ring
      have hle : (v % 128) * 2 ^ s ≤ v * 2 ^ s := by
        rw [hsplit]; exact Nat.le_add_right _ _
      have hacc : a + (v % 128) * 2 ^ s < 2 ^ (s + 7) := by
        have h1 : (v % 128) * 2 ^ s ≤ 127 * 2 ^ s :=
          Nat.mul_le_mul_right _ (by omega)
        have h2 : 2 ^ (s + 7) = 128 * 2 ^ s := by
          rw [pow_add]; norm_num; ring
        omega
      simp only [List.cons_append, readVarintLoop, hval, hb.2.1, hmod, if_neg hb.2.2,
        List.length_cons, List.append_eq]
      rw [lor_shift_eq_add a (v % 128) s ha (by omega)]
      rw [ih (v / 128) (by omega) _ (s + 7) (i + 1) post hacc (by omega)]
      simp only [Prod.mk.injEq, and_true]
      constructor <;> omega

/-- C17: for a `uint64` value `v`, `appendVarint(pre, v)` is `pre` followed by
between 1 and 10 bytes `w`, and `readVarint` started at `|pre|` on
`pre ‖ w ‖ post` returns `v`, the index just after `w`, and `ok = true`. -/
theorem C17_varint_roundtrip (v : Nat) (pre post : List Byte)
    (hv : v < 18446744073709551616) :
    ∃ w, appendVarint pre v = pre ++ w ∧ 1 ≤ w.length ∧ w.length ≤ 10 ∧
      readVarint (pre ++ w ++ post) pre.length = (v, pre.length + w.length, true) := by
  have hlen := appendVarint_length 9 v (by
    have : (18446744073709551616 : Nat) ≤ 2 ^ (7 * (9 + 1)) := by norm_num
    omega)
  refine ⟨appendVarint [] v, appendVarint_eq_append pre v, hlen.1, hlen.2, ?_⟩
  have hread := readVarintLoop_appendVarint v 0 0 pre.length post (by norm_num)
    (by simpa using hv)
  simp only [readVarint, List.append_assoc, List.drop_left, hread]
  simp

/-- Witness of C17: the value 300 (bytes `ac 02`) between `01 02` and `09`. -/
theorem C17_varint_roundtrip_witness :
    ∃ w, appendVarint [1, 2] 300 = [1, 2] ++ w ∧ 1 ≤ w.length ∧ w.length ≤ 10 ∧
      readVarint ([1, 2] ++ w ++ [9]) ([1, 2] : List Byte).length =
        (300, ([1, 2] : List Byte).length + w.length, true) :=
  C17_varint_roundtrip 300 [1, 2] [9] (by decide)

/-! ### Field reader -/

theorem readVarintLoop_ok (l : List Byte) :
    ∀ (v s i val j : Nat), readVarintLoop l v s i = (val, j, true) →
      i < j ∧ j ≤ i + l.length := by
  induction l with
  | nil =>
    intro v s i val j h
    simp [readVarintLoop] at h
  | cons b rest ih =>
    intro v s i val j h
    simp only [readVarintLoop] at h
    split at h
    · simp only [Prod.mk.injEq, and_true] at h
      simp only [List.length_cons]
      omega
    · have := ih _ _ _ _ _ h
      simp only [List.length_cons]
      omega

theorem readVarint_ok (data : List Byte) (idx val j : Nat)
    (h : readVarint data idx = (val, j, true)) : idx < j ∧ j ≤ data.length := by
  have := readVarintLoop_ok _ _ _ _ _ _ h
  simp only [List.length_drop] at this
  omega

/-- Where the field reader does stay in bounds: whenever `readField` returns
`ok = true` and, for a length-delimited field, the declared length is below
2^63, the returned range satisfies `idx < dataStart ≤ dataEnd ≤ len(data)`. -/
theorem readField_in_bounds (data : List Byte) (idx fieldNum wire : Nat)
    (dataStart dataEnd : Int)
    (h : readField data idx = (fieldNum, wire, dataStart, dataEnd, true))
    (hlen : wire = 2 → (readVarint data (idx + 1)).1 < 9223372036854775808) :
    (idx : Int) < dataStart ∧ dataStart ≤ dataEnd ∧ dataEnd ≤ (data.length : Int) := by
  simp only [readField] at h
  split at h
  · simp at h
  · split at h
    · -- varint
      rcases hrv : readVarint data (idx + 1) with ⟨val, j, ok⟩
      rw [hrv] at h
      cases ok
      · simp at h
      · have hb := readVarint_ok data (idx + 1) val j hrv
        simp only [Bool.not_eq_true, Bool.true_eq_false, if_false, Prod.mk.injEq,
          and_true] at h
        obtain ⟨-, -, rfl, rfl⟩ := h
        push_cast
        omega
    · split at h
      · -- fixed64
        split at h
        · simp at h
        · simp only [Prod.mk.injEq, and_true] at h
          obtain ⟨-, -, rfl, rfl⟩ := h
          push_cast
          omega
      · split at h
        · -- length-delimited
          rename_i hw2
          rcases hrv : readVarint data (idx + 1) with ⟨val, j, ok⟩
          rw [hrv] at h
          cases ok
          · simp at h
          · have hb := readVarint_ok data (idx + 1) val j hrv
            simp only [not_true_eq_false, Bool.not_eq_true, Bool.true_eq_false, if_false] at h
            split at h
            · simp at h
            · rename_i hchk
              simp only [Prod.mk.injEq, and_true] at h
              obtain ⟨-, hw, rfl, rfl⟩ := h
              have hsmall := hlen (by rw [← hw]; exact hw2)
              rw [hrv] at hsmall
              simp only [intOfUint64, if_pos hsmall] at hchk ⊢
              push_cast
              omega
        · simp at h

/-- The field reader rejects an index at or past the end and every wire type
other than 0, 1 and 2. -/
theorem readField_rejects (data : List Byte) (idx : Nat)
    (h : idx ≥ data.length ∨ 2 < (data.getD idx 0).val &&& 7) :
    (readField data idx).2.2.2.2 = false := by
  simp only [readField]
  split
  · rfl
  · rcases h with h | h
    · omega
    · rw [if_neg (by omega), if_neg (by omega), if_neg (by omega)]

/-- C19, evaluated on the code: the field `0a f5 ff ff ff ff ff ff ff ff 01`
(field 1, length-delimited, declared length 2^64 - 11) is accepted with
`dataStart = 1` and `dataEnd = 0`, a range that ends before it starts. -/
theorem C19_field_reader_negative_length :
    readVarint [0x0A, 0xF5, 0xFF, 0xFF, 0xFF, 0xFF, 0xFF, 0xFF, 0xFF, 0xFF, 0x01] 1 =
        (18446744073709551605, 11, true) ∧
      intOfUint64 18446744073709551605 = -11 ∧
      readField [0x0A, 0xF5, 0xFF, 0xFF, 0xFF, 0xFF, 0xFF, 0xFF, 0xFF, 0xFF, 0x01] 0 =
        (1, 2, 1, 0, true) := by
  decide


/-! ### `float64` rounding -/

theorem bitLengthAux_zero (fuel : Nat) : bitLengthAux fuel 0 = 0 := by
  cases fuel <;> simp [bitLengthAux]

theorem bitLengthAux_spec (fuel : Nat) :
    ∀ a : Nat, a ≤ fuel → a ≠ 0 → ∃ b, bitLengthAux fuel a = b + 1 ∧ 2 ^ b ≤ a := by
  induction fuel with
  | zero =>
    intro a h0 hne
    omega
  | succ fuel ih =>
    intro a hle hne
    simp only [bitLengthAux, if_neg hne]
    by_cases h2 : a / 2 = 0
    · refine ⟨0, ?_, ?_⟩
      · rw [h2, bitLengthAux_zero]
      · simp only [pow_zero]
        omega
    · obtain ⟨b, hb, hpow⟩ := ih (a / 2) (by omega) h2
      refine ⟨b + 1, by rw [hb], ?_⟩
      rw [pow_succ]
      omega

/-- A non-zero number is at least `2 ^ (bitLength - 1)`. -/
theorem bitLength_spec (a : Nat) (hne : a ≠ 0) :
    ∃ b, bitLength a = b + 1 ∧ 2 ^ b ≤ a :=
  bitLengthAux_spec a a (Nat.le_refl a) hne

/-- Rounding to nearest is off by at most half a unit. -/
theorem roundHalfEven_err (a k : Nat) :
    2 * (roundHalfEven a k * 2 ^ k) ≤ 2 * a + 2 ^ k ∧
      2 * a ≤ 2 * (roundHalfEven a k * 2 ^ k) + 2 ^ k := by
  have hP : 0 < 2 ^ k := Nat.two_pow_pos k
  have hdm := Nat.div_add_mod a (2 ^ k)
  have hr := Nat.mod_lt a hP
  simp only [roundHalfEven]
  generalize 2 ^ k = P at *
  generalize a / P = q at *
  generalize a % P = r at *
  split
  · rename_i h
    rw [Nat.add_mul, Nat.one_mul, Nat.mul_comm q P]
    rcases h with h | h <;> omega
  · rename_i h
    rw [Nat.mul_comm q P]
    have h1 : ¬ 2 * r > P := fun hh => h (Or.inl hh)
    omega

/-- The rounded exponent is not below the exponent of the exact value. -/
theorem F64.round_e_ge (m e : Int) : e ≤ (F64.round m e).e := by
  simp only [F64.round]
  split
  · exact le_refl e
  · simp only
    omega

theorem withSignOf_cast (m : Int) (a : Nat) :
    ((withSignOf m a : Int) : ℚ) = if m < 0 then -(a : ℚ) else (a : ℚ) := by
  simp only [withSignOf]
  split <;> simp

theorem natAbs_cast (m : Int) :
    (m : ℚ) = if m < 0 then -((m.natAbs : Nat) : ℚ) else ((m.natAbs : Nat) : ℚ) := by
  have hc : ((m.natAbs : Nat) : ℚ) = |(m : ℚ)| := by
    rw [Nat.cast_natAbs, Int.cast_abs]
  rw [hc]
  split
  · rename_i h
    rw [abs_of_neg (by exact_mod_cast h), neg_neg]
  · rename_i h
    rw [abs_of_nonneg (by exact_mod_cast (not_lt.mp h))]

/-- Relative error of rounding: the rounded value is within `2 ^ -53` of the
exact value `m * 2 ^ e`, relative to its magnitude, as long as the exponent
is not below the subnormal exponent. -/
theorem F64.round_err (m e : Int) (he : -1074 ≤ e) :
    |(F64.round m e).toRat - (m : ℚ) * (2 : ℚ) ^ e| ≤
      |(m : ℚ) * (2 : ℚ) ^ e| / 9007199254740992 := by
  have h2e : (0 : ℚ) < (2 : ℚ) ^ e := zpow_pos (by norm_num) e
  simp only [F64.round]
  split
  · simp only [F64.toRat, sub_self, abs_zero]
    positivity
  · rename_i hk
    have hkpos : 0 < (bitLength m.natAbs : Int) - 53 := by omega
    have hkeq : max ((bitLength m.natAbs : Int) - 53) (-1074 - e) =
        (bitLength m.natAbs : Int) - 53 := by omega
    have hne : m.natAbs ≠ 0 := by
      intro h0
      rw [h0] at hkpos
      simp [bitLength, bitLengthAux] at hkpos
    obtain ⟨b, hb, hpow⟩ := bitLength_spec m.natAbs hne
    rw [hkeq, hb]
    have hb53 : 53 ≤ b := by rw [hb] at hkpos; omega
    have hkn : (((b + 1 : Nat) : Int) - 53).toNat = b - 52 := by omega
    have hki : (((b + 1 : Nat) : Int) - 53) = ((b - 52 : Nat) : Int) := by omega
    obtain ⟨hr1, hr2⟩ := roundHalfEven_err m.natAbs (b - 52)
    simp only [F64.toRat, hkn]
    rw [hki, zpow_add₀ (by norm_num : (2 : ℚ) ≠ 0), zpow_natCast, withSignOf_cast]
    set a := m.natAbs with ha
    set R := roundHalfEven a (b - 52) with hR
    -- integer facts turned into rational ones
    have hpowb : (2 : ℚ) ^ b = 4503599627370496 * (2 : ℚ) ^ (b - 52) := by
      have : b = 52 + (b - 52) := by omega
      conv_lhs => rw [this, pow_add]
      norm_num
    have hpowq : (2 : ℚ) ^ b ≤ (a : ℚ) := by exact_mod_cast hpow
    have hq1 : 2 * ((R : ℚ) * (2 : ℚ) ^ (b - 52)) ≤ 2 * (a : ℚ) + (2 : ℚ) ^ (b - 52) := by
      exact_mod_cast hr1
    have hq2 : 2 * (a : ℚ) ≤ 2 * ((R : ℚ) * (2 : ℚ) ^ (b - 52)) + (2 : ℚ) ^ (b - 52) := by
      exact_mod_cast hr2
    have hP : (0 : ℚ) < (2 : ℚ) ^ (b - 52) := by positivity
    have habs : |(R : ℚ) * (2 : ℚ) ^ (b - 52) - (a : ℚ)| ≤ (a : ℚ) / 9007199254740992 := by
      rw [abs_le]
      constructor <;> linarith
    have hma : |(m : ℚ)| = (a : ℚ) := by
      rw [natAbs_cast m]
      split
      · rw [abs_neg, abs_of_nonneg (by positivity)]
      · rw [abs_of_nonneg (by positivity)]
    rw [abs_mul, hma, abs_of_pos h2e]
    have hdiff : (if m < 0 then -(R : ℚ) else (R : ℚ)) * ((2 : ℚ) ^ e * (2 : ℚ) ^ (b - 52)) -
        (m : ℚ) * (2 : ℚ) ^ e =
        (if m < 0 then -1 else 1) * ((R : ℚ) * (2 : ℚ) ^ (b - 52) - (a : ℚ)) * (2 : ℚ) ^ e := by
      rw [natAbs_cast m]
      split <;> ring
    rw [hdiff, abs_mul, abs_mul, abs_of_pos h2e]
    have hs : |(if m < 0 then (-1 : ℚ) else 1)| = 1 := by split <;> simp
    rw [hs, one_mul]
    have := mul_le_mul_of_nonneg_right habs (le_of_lt h2e)
    rw [div_mul_eq_mul_div] at this
    exact this

/-- Truncation toward zero moves a value by less than 1, toward zero. -/
theorem F64.toInt64_err (x : F64) :
    |((x.toInt64 : Int) : ℚ) - x.toRat| < 1 ∧ |((x.toInt64 : Int) : ℚ)| ≤ |x.toRat| := by
  simp only [F64.toInt64, F64.toRat]
  split
  · rename_i he
    have hcast : (2 : ℚ) ^ x.e = (2 : ℚ) ^ x.e.toNat := by
      rw [← zpow_natCast, Int.toNat_of_nonneg he]
    push_cast
    rw [hcast, sub_self, abs_zero]
    exact ⟨by norm_num, le_refl _⟩
  · rename_i he
    have hen : x.e = -(((-x.e).toNat : Nat) : Int) := by omega
    set n := (-x.e).toNat with hn
    have hP : (0 : ℚ) < (2 : ℚ) ^ n := by positivity
    have hz : (2 : ℚ) ^ x.e = 1 / (2 : ℚ) ^ n := by
      rw [hen, zpow_neg, zpow_natCast, one_div]
    rw [hz, withSignOf_cast]
    set a := x.m.natAbs with ha
    have hdm := Nat.div_add_mod a (2 ^ n)
    have hr := Nat.mod_lt a (Nat.two_pow_pos n)
    have hdmq : (2 : ℚ) ^ n * ((a / 2 ^ n : Nat) : ℚ) + ((a % 2 ^ n : Nat) : ℚ) = (a : ℚ) := by
      exact_mod_cast hdm
    have hrq : ((a % 2 ^ n : Nat) : ℚ) < (2 : ℚ) ^ n := by exact_mod_cast hr
    have hr0 : (0 : ℚ) ≤ ((a % 2 ^ n : Nat) : ℚ) := by positivity
    have hq0 : (0 : ℚ) ≤ ((a / 2 ^ n : Nat) : ℚ) := by positivity
    set q : ℚ := ((a / 2 ^ n : Nat) : ℚ) with hq
    set r : ℚ := ((a % 2 ^ n : Nat) : ℚ) with hr'
    have hfrac : (a : ℚ) * (1 / (2 : ℚ) ^ n) = q + r / (2 : ℚ) ^ n := by
      rw [← hdmq]
      field_simp
      ring
    have hr1 : r / (2 : ℚ) ^ n < 1 := by
      rw [div_lt_one hP]; exact hrq
    have hr2 : 0 ≤ r / (2 : ℚ) ^ n := by positivity
    rw [natAbs_cast x.m]
    split
    · rw [neg_mul, hfrac]
      constructor
      · rw [abs_lt]; constructor <;> linarith
      · rw [abs_neg, abs_neg, abs_of_nonneg hq0, abs_of_nonneg (by linarith)]
        linarith
    · rw [hfrac]
      constructor
      · rw [abs_lt]; constructor <;> linarith
      · rw [abs_of_nonneg hq0, abs_of_nonneg (by linarith)]
        linarith

/-! ### Coordinate codec: the claims -/

/-- The arithmetic of the round trip: a product rounded (`p`), truncated
(`n`), converted (`f`) and multiplied by the `float64` nearest to `10 ^ -8`
and rounded again (`c`) ends within `10 ^ -8 + |D| * 2 ^ -51` of `D`. -/
theorem roundtrip_arith (D p n f c : ℚ)
    (hp : |p - D * 100000000| ≤ |D * 100000000| / 9007199254740992)
    (hn1 : |n - p| < 1) (hn2 : |n| ≤ |p|)
    (hf : |f - n| ≤ |n| / 9007199254740992)
    (hc : |c - f * (6044629098073146 / 604462909807314587353088)| ≤
      |f * (6044629098073146 / 604462909807314587353088)| / 9007199254740992) :
    |c - D| < 1 / 100000000 + |D| / 2251799813685248 := by
  have hD : |D * 100000000| = |D| * 100000000 := by
    rw [abs_mul, abs_of_pos (by norm_num : (0 : ℚ) < 100000000)]
  have hft : |f * (6044629098073146 / 604462909807314587353088)| =
      |f| * (6044629098073146 / 604462909807314587353088) := by
    rw [abs_mul, abs_of_pos (by norm_num : (0 : ℚ) < 6044629098073146 / 604462909807314587353088)]
  rw [hD] at hp
  rw [hft] at hc
  have hA := abs_nonneg D
  have hp1 := abs_le.mp hp
  have hn1' := abs_lt.mp hn1
  have hf1 := abs_le.mp hf
  have hc1 := abs_le.mp hc
  have hN1 := le_abs_self n
  have hN2 := neg_abs_le n
  have hP : |p| ≤ |D| * 100000000 + |D| * 100000000 / 9007199254740992 := by
    have h1 : |p| ≤ |D * 100000000| + |p - D * 100000000| := by
      have := abs_add (D * 100000000) (p - D * 100000000)
      simpa using this
    rw [hD] at h1
    linarith
  have hF : |f| ≤ |n| + |n| / 9007199254740992 := by
    have h1 : |f| ≤ |n| + |f - n| := by
      have := abs_add n (f - n)
      simpa using this
    linarith
  have hNn := abs_nonneg n
  rw [abs_lt]
  constructor <;> linarith

theorem Pow10_8_eq : Pow10_8 = ⟨100000000, 0⟩ := by decide

theorem Pow10_neg8_eq : Pow10_neg8 = ⟨6044629098073146, -79⟩ := by decide

/-- The round trip through the fixed-point form, for every `float64` value:
the result is within `10 ^ -8 + |d| * 2 ^ -51` of `d`. -/
theorem CoordFromInt_IntFromCoord_err (d : F64) (he : -1074 ≤ d.e) :
    |(CoordFromInt (IntFromCoord d)).toRat - d.toRat| <
      1 / 100000000 + |d.toRat| / 2251799813685248 := by
  have hx := F64.round_err (d.m * 100000000) (d.e + 0) (by omega)
  have hxv : (((d.m * 100000000 : Int) : ℚ)) * (2 : ℚ) ^ (d.e + 0) = d.toRat * 100000000 := by
    simp only [F64.toRat, add_zero]
    push_cast
    ring
  rw [hxv] at hx
  have hn := F64.toInt64_err (F64.round (d.m * 100000000) (d.e + 0))
  have hf := F64.round_err (F64.round (d.m * 100000000) (d.e + 0)).toInt64 0 (by omega)
  have hfe := F64.round_e_ge (F64.round (d.m * 100000000) (d.e + 0)).toInt64 0
  simp only [zpow_zero, mul_one] at hf
  have hc := F64.round_err
    ((F64.round (F64.round (d.m * 100000000) (d.e + 0)).toInt64 0).m * 6044629098073146)
    ((F64.round (F64.round (d.m * 100000000) (d.e + 0)).toInt64 0).e + -79) (by omega)
  have hcv : ((((F64.round (F64.round (d.m * 100000000) (d.e + 0)).toInt64 0).m *
        6044629098073146 : Int) : ℚ)) *
      (2 : ℚ) ^ ((F64.round (F64.round (d.m * 100000000) (d.e + 0)).toInt64 0).e + -79) =
      (F64.round (F64.round (d.m * 100000000) (d.e + 0)).toInt64 0).toRat *
        (6044629098073146 / 604462909807314587353088) := by
    simp only [F64.toRat]
    rw [zpow_add₀ (by norm_num : (2 : ℚ) ≠ 0)]
    push_cast
    norm_num
    ring
  rw [hcv] at hc
  have hgoal : CoordFromInt (IntFromCoord d) =
      F64.round ((F64.round (F64.round (d.m * 100000000) (d.e + 0)).toInt64 0).m *
          6044629098073146)
        ((F64.round (F64.round (d.m * 100000000) (d.e + 0)).toInt64 0).e + -79) := by
    simp only [CoordFromInt, IntFromCoord, F64.mul, F64.ofInt64, Pow10_8_eq, Pow10_neg8_eq]
  rw [hgoal]
  exact roundtrip_arith _ _ _ _ _ hx hn.1 hn.2 hf hc

/-- Every `float64` value of magnitude at most 180 has a fixed-point form
that fits the signed 64-bit range. -/
theorem IntFromCoord_fits (d : F64) (he : -1074 ≤ d.e) (h180 : |d.toRat| ≤ 180) :
    -9223372036854775808 ≤ IntFromCoord d ∧ IntFromCoord d < 9223372036854775808 := by
  have hx := F64.round_err (d.m * 100000000) (d.e + 0) (by omega)
  have hxv : (((d.m * 100000000 : Int) : ℚ)) * (2 : ℚ) ^ (d.e + 0) = d.toRat * 100000000 := by
    simp only [F64.toRat, add_zero]
    push_cast
    ring
  rw [hxv, abs_mul, abs_of_pos (by norm_num : (0 : ℚ) < 100000000)] at hx
  have hn := (F64.toInt64_err (F64.round (d.m * 100000000) (d.e + 0))).2
  have hI : IntFromCoord d = (F64.round (d.m * 100000000) (d.e + 0)).toInt64 := by
    simp only [IntFromCoord, F64.mul, Pow10_8_eq]
  rw [hI]
  set n := (F64.round (d.m * 100000000) (d.e + 0)).toInt64 with hn'
  have hP : |(F64.round (d.m * 100000000) (d.e + 0)).toRat| ≤
      |d.toRat| * 100000000 + |d.toRat| * 100000000 / 9007199254740992 := by
    have h1 := abs_add (d.toRat * 100000000)
      ((F64.round (d.m * 100000000) (d.e + 0)).toRat - d.toRat * 100000000)
    rw [abs_mul, abs_of_pos (by norm_num : (0 : ℚ) < 100000000)] at h1
    simp only [add_sub_cancel] at h1
    linarith
  have hq : |(n : ℚ)| < 9223372036854775808 := by
    have hA := abs_nonneg d.toRat
    linarith
  have hq' := abs_lt.mp hq
  constructor
  · have : ((-9223372036854775808 : Int) : ℚ) < (n : ℚ) := by
      push_cast
      exact hq'.1
    exact le_of_lt (by exact_mod_cast this)
  · have : (n : ℚ) < ((9223372036854775808 : Int) : ℚ) := by
      push_cast
      exact hq'.2
    exact_mod_cast this

/-! ### The coordinate range: exact tolerance -/

theorem bitLengthAux_lt (fuel : Nat) :
    ∀ a : Nat, a ≤ fuel → a < 2 ^ bitLengthAux fuel a := by
  induction fuel with
  | zero =>
    intro a h
    have : a = 0 := by omega
    subst this
    simp [bitLengthAux]
  | succ fuel ih =>
    intro a hle
    by_cases hne : a = 0
    · subst hne
      simp [bitLengthAux]
    · simp only [bitLengthAux, if_neg hne]
      have := ih (a / 2) (by omega)
      rw [pow_succ]
      omega

/-- Every number is below `2 ^ bitLength`. -/
theorem bitLength_lt (a : Nat) : a < 2 ^ bitLength a :=
  bitLengthAux_lt a a (Nat.le_refl a)

/-- The two outcomes of rounding a non-negative exact value: it is kept as it
is when the mantissa has at most 53 bits, and otherwise `k ≥ 1` low bits are
rounded away, leaving a mantissa between `2 ^ 52` and `2 ^ 53`. -/
theorem F64.round_nat_cases (a : Nat) (e : Int) (he : -1074 ≤ e) :
    (a < 2 ^ 53 ∧ F64.round (a : Int) e = ⟨(a : Int), e⟩) ∨
    ∃ k M : Nat, 1 ≤ k ∧ F64.round (a : Int) e = ⟨(M : Int), e + (k : Int)⟩ ∧
      2 ^ 52 * 2 ^ k ≤ a ∧ a < 2 ^ 53 * 2 ^ k ∧ 2 ^ 52 ≤ M ∧ M ≤ 2 ^ 53 ∧
      2 * (M * 2 ^ k) ≤ 2 * a + 2 ^ k ∧ 2 * a ≤ 2 * (M * 2 ^ k) + 2 ^ k := by
  have hlt := bitLength_lt a
  by_cases hbl : bitLength a ≤ 53
  · left
    constructor
    · exact lt_of_lt_of_le hlt (Nat.pow_le_pow_right (by norm_num) hbl)
    · simp only [F64.round, Int.natAbs_ofNat]
      rw [if_pos (by omega)]
  · right
    have hne : a ≠ 0 := by
      intro h0
      subst h0
      simp [bitLength, bitLengthAux] at hbl
    obtain ⟨b, hb, hpow⟩ := bitLength_spec a hne
    have hb53 : 53 ≤ b := by omega
    refine ⟨b - 52, roundHalfEven a (b - 52), by omega, ?_, ?_, ?_, ?_, ?_,
      (roundHalfEven_err a (b - 52)).1, (roundHalfEven_err a (b - 52)).2⟩
    · simp only [F64.round, Int.natAbs_ofNat, hb]
      have hk : max (((b + 1 : Nat) : Int) - 53) (-1074 - e) = ((b - 52 : Nat) : Int) := by omega
      rw [hk, if_neg (by omega)]
      simp only [Int.toNat_ofNat, withSignOf]
      rw [if_neg (by omega)]
    · have : 2 ^ 52 * 2 ^ (b - 52) = 2 ^ b := by
        rw [← pow_add]; congr 1; omega
      omega
    · have : 2 ^ 53 * 2 ^ (b - 52) = 2 ^ (b + 1) := by
        rw [← pow_add]; congr 1; omega
      rw [hb] at hlt
      omega
    · obtain ⟨h1, h2⟩ := roundHalfEven_err a (b - 52)
      have hP : 0 < 2 ^ (b - 52) := Nat.two_pow_pos _
      have hlow : 2 ^ 52 * 2 ^ (b - 52) ≤ a := by
        have : 2 ^ 52 * 2 ^ (b - 52) = 2 ^ b := by
          rw [← pow_add]; congr 1; omega
        omega
      by_contra hM
      have hM' : roundHalfEven a (b - 52) + 1 ≤ 2 ^ 52 := by omega
      have := Nat.mul_le_mul_right (2 ^ (b - 52)) hM'
      rw [Nat.add_mul, Nat.one_mul] at this
      omega
    · obtain ⟨h1, h2⟩ := roundHalfEven_err a (b - 52)
      have hP : 0 < 2 ^ (b - 52) := Nat.two_pow_pos _
      have hup : a < 2 ^ 53 * 2 ^ (b - 52) := by
        have : 2 ^ 53 * 2 ^ (b - 52) = 2 ^ (b + 1) := by
          rw [← pow_add]; congr 1; omega
        rw [hb] at hlt
        omega
      by_contra hM
      have hM' : 2 ^ 53 + 1 ≤ roundHalfEven a (b - 52) := by omega
      have := Nat.mul_le_mul_right (2 ^ (b - 52)) hM'
      rw [Nat.add_mul, Nat.one_mul] at this
      omega

/-! ### Sign symmetry of the codec -/

theorem roundHalfEven_zero (k : Nat) : roundHalfEven 0 k = 0 := by
  have hP : 0 < 2 ^ k := Nat.two_pow_pos k
  simp only [roundHalfEven, Nat.zero_div, Nat.zero_mod]
  rw [if_neg]
  omega

theorem withSignOf_neg (m : Int) (a : Nat) (h : m = 0 → a = 0) :
    withSignOf (-m) a = -withSignOf m a := by
  simp only [withSignOf]
  by_cases h0 : m = 0
  · subst h0
    simp [h rfl]
  · by_cases hneg : m < 0
    · rw [if_neg (by omega), if_pos hneg, neg_neg]
    · rw [if_pos (by omega), if_neg hneg]

/-- Rounding commutes with negation. -/
theorem F64.round_neg (m e : Int) :
    F64.round (-m) e = ⟨-(F64.round m e).m, (F64.round m e).e⟩ := by
  simp only [F64.round, Int.natAbs_neg]
  split
  · rfl
  · simp only
    rw [withSignOf_neg]
    intro h0
    subst h0
    exact roundHalfEven_zero _

/-- Truncation toward zero commutes with negation. -/
theorem F64.toInt64_neg (m e : Int) :
    F64.toInt64 ⟨-m, e⟩ = -F64.toInt64 ⟨m, e⟩ := by
  simp only [F64.toInt64, Int.natAbs_neg]
  split
  · rw [neg_mul]
  · rw [withSignOf_neg]
    intro h0
    subst h0
    simp

theorem IntFromCoord_neg (m e : Int) :
    IntFromCoord ⟨-m, e⟩ = -IntFromCoord ⟨m, e⟩ := by
  simp only [IntFromCoord, F64.mul, Pow10_8_eq, neg_mul]
  rw [F64.round_neg, F64.toInt64_neg]

theorem CoordFromInt_neg (n : Int) :
    CoordFromInt (-n) = ⟨-(CoordFromInt n).m, (CoordFromInt n).e⟩ := by
  simp only [CoordFromInt, F64.mul, F64.ofInt64, Pow10_neg8_eq]
  rw [F64.round_neg]
  simp only [neg_mul]
  rw [F64.round_neg]

/-! ### The two halves of the round trip on non-negative values -/

/-- No multiple of `10 ^ 8` lies just above `2 ^ j` for `45 ≤ j ≤ 77`
(written with `j = 79 - kc`): the spacing of the `float64` values near a
coordinate never lets the round trip step past the tolerance. -/
theorem gridCheck (kc : Nat) (N : Int) (h2 : 2 ≤ kc) (h34 : kc ≤ 34)
    (h : N * 2 ^ kc * 100000000 ≤ 604462909807314587353088 + 7045568 * 2 ^ kc) :
    N * 2 ^ kc * 100000000 ≤ 604462909807314587353088 := by
  interval_cases kc <;> norm_num at h ⊢ <;> omega

theorem F64.round_small (n : Nat) (e : Int) (hn : n < 2 ^ 53) (he : -1074 ≤ e) :
    F64.round (n : Int) e = ⟨(n : Int), e⟩ := by
  rcases F64.round_nat_cases n e he with ⟨_, h⟩ | ⟨k, M, hk, _, hlo, _⟩
  · exact h
  · exfalso
    have h1 : 2 ^ 1 ≤ 2 ^ k := Nat.pow_le_pow_right (by norm_num) hk
    have h2 := Nat.mul_le_mul_left (2 ^ 52) h1
    norm_num at h2 hn hlo
    omega

/-- The conversion back to degrees of a non-negative fixed-point value below
`2 ^ 53`: either the product with the `float64` nearest to `10 ^ -8` is
exact, or at least two low bits are rounded away. -/
theorem CoordFromInt_cases (n : Nat) (hn : n < 2 ^ 53) :
    (CoordFromInt (n : Int)).toRat =
        (n : ℚ) * (6044629098073146 / 604462909807314587353088) ∨
    ∃ kc Mc : Nat, 2 ≤ kc ∧ CoordFromInt (n : Int) = ⟨(Mc : Int), -79 + (kc : Int)⟩ ∧
      2 ^ 52 ≤ Mc ∧
      2 * (Mc * 2 ^ kc) ≤ 2 * (n * 6044629098073146) + 2 ^ kc ∧
      2 * (n * 6044629098073146) ≤ 2 * (Mc * 2 ^ kc) + 2 ^ kc := by
  have hC : CoordFromInt (n : Int) =
      F64.round (((n * 6044629098073146 : Nat) : Int)) (-79) := by
    simp only [CoordFromInt, F64.mul, F64.ofInt64, Pow10_neg8_eq]
    rw [F64.round_small n 0 hn (by omega)]
    simp only [zero_add]
    push_cast
    rfl
  rw [hC]
  rcases F64.round_nat_cases (n * 6044629098073146) (-79) (by omega) with
    ⟨_, h⟩ | ⟨k, M, hk, h, hlo, hhi, hM1, _, he1, he2⟩
  · left
    rw [h]
    simp only [F64.toRat]
    push_cast
    norm_num
    ring
  · by_cases hn2 : n ≤ 2
    · left
      interval_cases n
      · simp [F64.round, F64.toRat, bitLength, bitLengthAux]
      · exfalso
        have h1 : 2 ^ 1 ≤ 2 ^ k := Nat.pow_le_pow_right (by norm_num) hk
        have h2 := Nat.mul_le_mul_left (2 ^ 52) h1
        norm_num at h2 hlo
        omega
      · have h2 : F64.round (((2 * 6044629098073146 : Nat) : Int)) (-79) =
            ⟨6044629098073146, -78⟩ := by decide
        rw [h2]
        simp only [F64.toRat]
        norm_num
    · right
      refine ⟨k, M, ?_, h, hM1, he1, he2⟩
      by_contra hk2
      have hk1 : k = 1 := by omega
      subst hk1
      norm_num at hhi
      omega

/-- The fixed-point form of a non-negative `float64` value `D * 2 ^ q` whose
product with `10 ^ 8` is at most `1.8 * 10 ^ 10`: it is a natural number `n`
at most the exact product `x` plus its rounding, and `x` stays below `n + 1`
by at least half a unit `2 ^ a` of the rounded product, of which `n` is at
most `2 ^ 53` units. -/
theorem IntFromCoord_nat (D : Nat) (q : Int) (hq : -1074 ≤ q)
    (hx : (D : ℚ) * 100000000 * (2 : ℚ) ^ q ≤ 18000000000) :
    ∃ (n : Nat) (a : Int), IntFromCoord ⟨(D : Int), q⟩ = (n : Int) ∧
      (D : ℚ) * 100000000 * (2 : ℚ) ^ q - (n : ℚ) ≤ 1 - (2 : ℚ) ^ a / 2 ∧
      (n : ℚ) ≤ 9007199254740992 * (2 : ℚ) ^ a ∧
      (n : ℚ) ≤ (D : ℚ) * 100000000 * (2 : ℚ) ^ q +
        (D : ℚ) * 100000000 * (2 : ℚ) ^ q / 9007199254740992 := by
  have hE : (0 : ℚ) < (2 : ℚ) ^ q := zpow_pos (by norm_num) q
  have hI : IntFromCoord ⟨(D : Int), q⟩ =
      (F64.round (((D * 100000000 : Nat) : Int)) q).toInt64 := by
    simp only [IntFromCoord, F64.mul, Pow10_8_eq, add_zero]
    push_cast
    rfl
  rw [hI]
  have hXc : ((D * 100000000 : Nat) : ℚ) = (D : ℚ) * 100000000 := by push_cast; rfl
  have hx0 : (0 : ℚ) ≤ (D : ℚ) * 100000000 * (2 : ℚ) ^ q := by positivity
  rcases F64.round_nat_cases (D * 100000000) q hq with
    ⟨hlt, hr⟩ | ⟨k, M, hk, hr, hlo, hhi, hM1, hM2, he1, he2⟩
  · rw [hr]
    have hltq : ((D * 100000000 : Nat) : ℚ) < 9007199254740992 := by exact_mod_cast hlt
    rw [hXc] at hltq
    by_cases hq0 : 0 ≤ q
    · refine ⟨D * 100000000 * 2 ^ q.toNat, 1, ?_, ?_, ?_, ?_⟩
      · simp only [F64.toInt64, if_pos hq0]
        push_cast
        rfl
      · have hcast : (2 : ℚ) ^ q = (2 : ℚ) ^ q.toNat := by
          rw [← zpow_natCast, Int.toNat_of_nonneg hq0]
        rw [hcast]
        push_cast
        norm_num
      · have hcast : (2 : ℚ) ^ q = (2 : ℚ) ^ q.toNat := by
          rw [← zpow_natCast, Int.toNat_of_nonneg hq0]
        rw [hcast] at hx
        push_cast
        norm_num
        linarith
      · have hcast : (2 : ℚ) ^ q = (2 : ℚ) ^ q.toNat := by
          rw [← zpow_natCast, Int.toNat_of_nonneg hq0]
        rw [hcast] at hx0 ⊢
        push_cast
        linarith
    · have hen : q = -(((-q).toNat : Nat) : Int) := by omega
      set j := (-q).toNat with hj
      have hP : (0 : ℚ) < (2 : ℚ) ^ j := by positivity
      have hz : (2 : ℚ) ^ q = 1 / (2 : ℚ) ^ j := by
        rw [hen, zpow_neg, zpow_natCast, one_div]
      have hdm := Nat.div_add_mod (D * 100000000) (2 ^ j)
      have hrlt := Nat.mod_lt (D * 100000000) (Nat.two_pow_pos j)
      have hrle : (D * 100000000) % 2 ^ j + 1 ≤ 2 ^ j := hrlt
      have hdmq : (2 : ℚ) ^ j * (((D * 100000000) / 2 ^ j : Nat) : ℚ) +
          (((D * 100000000) % 2 ^ j : Nat) : ℚ) = (D : ℚ) * 100000000 := by
        rw [← hXc]
        exact_mod_cast hdm
      have hrq : (((D * 100000000) % 2 ^ j : Nat) : ℚ) + 1 ≤ (2 : ℚ) ^ j := by
        exact_mod_cast hrle
      have hr0 : (0 : ℚ) ≤ (((D * 100000000) % 2 ^ j : Nat) : ℚ) := by positivity
      have hn0 : (0 : ℚ) ≤ (((D * 100000000) / 2 ^ j : Nat) : ℚ) := by positivity
      refine ⟨(D * 100000000) / 2 ^ j, q, ?_, ?_, ?_, ?_⟩
      · simp only [F64.toInt64, if_neg hq0, withSignOf, Int.natAbs_ofNat]
        rw [if_neg (by omega)]
      · rw [hz]
        set nn : ℚ := (((D * 100000000) / 2 ^ j : Nat) : ℚ) with hnn
        set rr : ℚ := (((D * 100000000) % 2 ^ j : Nat) : ℚ) with hrr
        have hfrac : (D : ℚ) * 100000000 * (1 / (2 : ℚ) ^ j) = nn + rr / (2 : ℚ) ^ j := by
          rw [← hdmq]
          field_simp
          ring
        rw [hfrac]
        have h1 : rr / (2 : ℚ) ^ j ≤ 1 - 1 / (2 : ℚ) ^ j := by
          rw [div_le_iff₀ hP]
          have : (1 - 1 / (2 : ℚ) ^ j) * (2 : ℚ) ^ j = (2 : ℚ) ^ j - 1 := by
            field_simp
          rw [this]
          linarith
        have h2 : (0 : ℚ) < 1 / (2 : ℚ) ^ j := by positivity
        linarith
      · rw [hz]
        set nn : ℚ := (((D * 100000000) / 2 ^ j : Nat) : ℚ) with hnn
        set rr : ℚ := (((D * 100000000) % 2 ^ j : Nat) : ℚ) with hrr
        rw [mul_one_div, le_div_iff₀ hP]
        nlinarith
      · rw [hz]
        set nn : ℚ := (((D * 100000000) / 2 ^ j : Nat) : ℚ) with hnn
        set rr : ℚ := (((D * 100000000) % 2 ^ j : Nat) : ℚ) with hrr
        have hfrac : (D : ℚ) * 100000000 * (1 / (2 : ℚ) ^ j) = nn + rr / (2 : ℚ) ^ j := by
          rw [← hdmq]
          field_simp
          ring
        rw [hfrac]
        have h2 : (0 : ℚ) ≤ rr / (2 : ℚ) ^ j := by positivity
        have h3 : (0 : ℚ) ≤ (nn + rr / (2 : ℚ) ^ j) / 9007199254740992 := by positivity
        linarith
  · rw [hr]
    have hK : (0 : ℚ) < (2 : ℚ) ^ k := by positivity
    have hep : (2 : ℚ) ^ (q + (k : Int)) = (2 : ℚ) ^ q * (2 : ℚ) ^ k := by
      rw [zpow_add₀ (by norm_num : (2 : ℚ) ≠ 0), zpow_natCast]
    have hloq : 4503599627370496 * (2 : ℚ) ^ k ≤ (D : ℚ) * 100000000 := by
      rw [← hXc]
      exact_mod_cast hlo
    have he1q : 2 * ((M : ℚ) * (2 : ℚ) ^ k) ≤ 2 * ((D : ℚ) * 100000000) + (2 : ℚ) ^ k := by
      rw [← hXc]
      exact_mod_cast he1
    have he2q : 2 * ((D : ℚ) * 100000000) ≤ 2 * ((M : ℚ) * (2 : ℚ) ^ k) + (2 : ℚ) ^ k := by
      rw [← hXc]
      exact_mod_cast he2
    have hM2q : (M : ℚ) ≤ 9007199254740992 := by exact_mod_cast hM2
    -- the same facts at the scale of the value
    have hloE := mul_le_mul_of_nonneg_right hloq (le_of_lt hE)
    have he1E := mul_le_mul_of_nonneg_right he1q (le_of_lt hE)
    have he2E := mul_le_mul_of_nonneg_right he2q (le_of_lt hE)
    set U : ℚ := (2 : ℚ) ^ q * (2 : ℚ) ^ k with hU
    have hUpos : 0 < U := by positivity
    have hloU : 4503599627370496 * U ≤ (D : ℚ) * 100000000 * (2 : ℚ) ^ q := by
      have : 4503599627370496 * U = 4503599627370496 * (2 : ℚ) ^ k * (2 : ℚ) ^ q := by
        rw [hU]; ring
      rw [this]
      exact hloE
    have he1U : 2 * ((M : ℚ) * U) ≤ 2 * ((D : ℚ) * 100000000 * (2 : ℚ) ^ q) + U := by
      have h1 : 2 * ((M : ℚ) * U) = 2 * ((M : ℚ) * (2 : ℚ) ^ k) * (2 : ℚ) ^ q := by
        rw [hU]; ring
      have h2 : 2 * ((D : ℚ) * 100000000 * (2 : ℚ) ^ q) + U =
          (2 * ((D : ℚ) * 100000000) + (2 : ℚ) ^ k) * (2 : ℚ) ^ q := by
        rw [hU]; ring
      rw [h1, h2]
      exact he1E
    have he2U : 2 * ((D : ℚ) * 100000000 * (2 : ℚ) ^ q) ≤ 2 * ((M : ℚ) * U) + U := by
      have h1 : 2 * ((M : ℚ) * U) + U = (2 * ((M : ℚ) * (2 : ℚ) ^ k) + (2 : ℚ) ^ k) * (2 : ℚ) ^ q := by
        rw [hU]; ring
      have h2 : 2 * ((D : ℚ) * 100000000 * (2 : ℚ) ^ q) =
          2 * ((D : ℚ) * 100000000) * (2 : ℚ) ^ q := by ring
      rw [h1, h2]
      exact he2E
    by_cases hep0 : 0 ≤ q + (k : Int)
    · exfalso
      have h1 : (1 : ℚ) ≤ (2 : ℚ) ^ (q + (k : Int)) := one_le_zpow₀ (by norm_num) hep0
      rw [hep] at h1
      linarith
    · have hen : q + (k : Int) = -(((-(q + (k : Int))).toNat : Nat) : Int) := by omega
      set j := (-(q + (k : Int))).toNat with hj
      have hP : (0 : ℚ) < (2 : ℚ) ^ j := by positivity
      have hz : U = 1 / (2 : ℚ) ^ j := by
        rw [← hep, hen, zpow_neg, zpow_natCast, one_div]
      have hdm := Nat.div_add_mod M (2 ^ j)
      have hrlt := Nat.mod_lt M (Nat.two_pow_pos j)
      have hrle : M % 2 ^ j + 1 ≤ 2 ^ j := hrlt
      have hdmq : (2 : ℚ) ^ j * ((M / 2 ^ j : Nat) : ℚ) + ((M % 2 ^ j : Nat) : ℚ) = (M : ℚ) := by
        exact_mod_cast hdm
      have hrq : ((M % 2 ^ j : Nat) : ℚ) + 1 ≤ (2 : ℚ) ^ j := by exact_mod_cast hrle
      have hr0 : (0 : ℚ) ≤ ((M % 2 ^ j : Nat) : ℚ) := by positivity
      refine ⟨M / 2 ^ j, q + (k : Int), ?_, ?_, ?_, ?_⟩
      · simp only [F64.toInt64, if_neg hep0, withSignOf, Int.natAbs_ofNat]
        rw [if_neg (by omega)]
      · rw [hep]
        set nn : ℚ := ((M / 2 ^ j : Nat) : ℚ) with hnn
        set rr : ℚ := ((M % 2 ^ j : Nat) : ℚ) with hrr
        have hMU : (M : ℚ) * U = nn + rr * U := by
          rw [← hdmq, hz]
          field_simp
          ring
        have hUj : U * (2 : ℚ) ^ j = 1 := by
          rw [hz]; field_simp
        have hrU : rr * U + U ≤ 1 := by
          have := mul_le_mul_of_nonneg_right hrq (le_of_lt hUpos)
          rw [add_mul, one_mul, mul_comm ((2 : ℚ) ^ j) U, hUj] at this
          exact this
        linarith
      · rw [hep]
        set nn : ℚ := ((M / 2 ^ j : Nat) : ℚ) with hnn
        set rr : ℚ := ((M % 2 ^ j : Nat) : ℚ) with hrr
        have hMU : (M : ℚ) * U = nn + rr * U := by
          rw [← hdmq, hz]
          field_simp
          ring
        have hrU : 0 ≤ rr * U := by positivity
        have := mul_le_mul_of_nonneg_right hM2q (le_of_lt hUpos)
        linarith
      · set nn : ℚ := ((M / 2 ^ j : Nat) : ℚ) with hnn
        set rr : ℚ := ((M % 2 ^ j : Nat) : ℚ) with hrr
        have hMU : (M : ℚ) * U = nn + rr * U := by
          rw [← hdmq, hz]
          field_simp
          ring
        have hrU : 0 ≤ rr * U := by positivity
        linarith

/-- The lower half of the round trip where the conversion back rounds: the
result is a multiple of its own unit `2 ^ (kc - 79)`, and so is `d`; the
distance is at most `10 ^ -8` plus a fraction of that unit, and no multiple
of the unit lies in between. -/
theorem roundtrip_lower (D : Nat) (q : Int) (n : Nat) (a : Int) (kc Mc : Nat)
    (hD : D < 2 ^ 53)
    (h180 : (D : ℚ) * (2 : ℚ) ^ q ≤ 180)
    (hA1 : (D : ℚ) * 100000000 * (2 : ℚ) ^ q - (n : ℚ) ≤ 1 - (2 : ℚ) ^ a / 2)
    (hA2 : (n : ℚ) ≤ 9007199254740992 * (2 : ℚ) ^ a)
    (hkc : 2 ≤ kc) (hMc : 2 ^ 52 ≤ Mc)
    (h1 : 2 * (Mc * 2 ^ kc) ≤ 2 * (n * 6044629098073146) + 2 ^ kc)
    (h2 : 2 * (n * 6044629098073146) ≤ 2 * (Mc * 2 ^ kc) + 2 ^ kc) :
    (D : ℚ) * (2 : ℚ) ^ q - (Mc : ℚ) * (2 : ℚ) ^ (-79 + (kc : Int)) ≤ 1 / 100000000 := by
  have hE : (0 : ℚ) < (2 : ℚ) ^ q := zpow_pos (by norm_num) q
  have hW : (0 : ℚ) < (2 : ℚ) ^ a := zpow_pos (by norm_num) a
  have hPk : (0 : ℚ) < (2 : ℚ) ^ kc := by positivity
  have hUg : (2 : ℚ) ^ (-79 + (kc : Int)) = (2 : ℚ) ^ kc / 604462909807314587353088 := by
    rw [zpow_add₀ (by norm_num : (2 : ℚ) ≠ 0), zpow_natCast, zpow_neg]
    norm_num
    ring
  rw [hUg]
  by_cases hcd : (D : ℚ) * (2 : ℚ) ^ q ≤ (Mc : ℚ) * ((2 : ℚ) ^ kc / 604462909807314587353088)
  · linarith
  · rw [not_le] at hcd
    have hDq : (D : ℚ) + 1 ≤ 9007199254740992 := by
      have : D + 1 ≤ 2 ^ 53 := hD
      exact_mod_cast this
    have hMcq : (4503599627370496 : ℚ) ≤ (Mc : ℚ) := by exact_mod_cast hMc
    have h1q : 2 * ((Mc : ℚ) * (2 : ℚ) ^ kc) ≤
        2 * ((n : ℚ) * 6044629098073146) + (2 : ℚ) ^ kc := by exact_mod_cast h1
    have h2q : 2 * ((n : ℚ) * 6044629098073146) ≤
        2 * ((Mc : ℚ) * (2 : ℚ) ^ kc) + (2 : ℚ) ^ kc := by exact_mod_cast h2
    have hcP := mul_le_mul_of_nonneg_right hMcq (le_of_lt hPk)
    have hdE := mul_le_mul_of_nonneg_right hDq (le_of_lt hE)
    have hn0 : (0 : ℚ) ≤ (n : ℚ) := by positivity
    -- the unit of the result is not above the unit of `d`
    have hs1 : (2 : ℚ) ^ kc < 1208925819614629174706176 * (2 : ℚ) ^ q := by linarith
    have hz1 : (2 : ℚ) ^ (kc : Int) < (2 : ℚ) ^ (q + 80) := by
      rw [zpow_natCast, zpow_add₀ (by norm_num : (2 : ℚ) ≠ 0)]
      norm_num
      linarith
    have hlt1 : (kc : Int) < q + 80 := (zpow_lt_zpow_iff_right₀ (by norm_num : (1 : ℚ) < 2)).mp hz1
    have hqeq : q = -79 + (kc : Int) + ((q + 79 - (kc : Int)).toNat : Int) := by omega
    set r := (q + 79 - (kc : Int)).toNat with hr
    have hEeq : (2 : ℚ) ^ q = (2 : ℚ) ^ kc / 604462909807314587353088 * (2 : ℚ) ^ r := by
      conv_lhs => rw [hqeq]
      rw [zpow_add₀ (by norm_num : (2 : ℚ) ≠ 0), hUg, zpow_natCast]
    -- the difference is an integer number of units
    have hN : (((D * 2 ^ r : Nat) : Int) - (Mc : Int) : Int) * (2 : ℚ) ^ kc /
        604462909807314587353088 =
        (D : ℚ) * (2 : ℚ) ^ q - (Mc : ℚ) * ((2 : ℚ) ^ kc / 604462909807314587353088) := by
      rw [hEeq]
      push_cast
      ring
    -- the unit of the result is at most `2 ^ -26` units of the product
    have hs3 : (2 : ℚ) ^ kc < 18014398509481984 * (2 : ℚ) ^ a := by linarith
    have hz3 : (2 : ℚ) ^ (kc : Int) < (2 : ℚ) ^ (a + 54) := by
      rw [zpow_natCast, zpow_add₀ (by norm_num : (2 : ℚ) ≠ 0)]
      norm_num
      linarith
    have hlt3 : (kc : Int) < a + 54 := (zpow_lt_zpow_iff_right₀ (by norm_num : (1 : ℚ) < 2)).mp hz3
    have hz3' : (2 : ℚ) ^ (kc : Int) ≤ (2 : ℚ) ^ (a + 53) :=
      zpow_le_zpow_right₀ (by norm_num : (1 : ℚ) ≤ 2) (by omega)
    rw [zpow_natCast, zpow_add₀ (by norm_num : (2 : ℚ) ≠ 0)] at hz3'
    norm_num at hz3'
    -- the result is below 180
    have hs4 : (2 : ℚ) ^ kc < (2 : ℚ) ^ 35 := by
      norm_num
      linarith
    have hkc34 : kc < 35 := (pow_lt_pow_iff_right₀ (by norm_num : (1 : ℚ) < 2)).mp hs4
    set N : Int := ((D * 2 ^ r : Nat) : Int) - (Mc : Int) with hNdef
    have hgridq : (N : ℚ) * (2 : ℚ) ^ kc * 100000000 ≤
        604462909807314587353088 + 7045568 * (2 : ℚ) ^ kc := by
      linarith
    have hgrid : N * 2 ^ kc * 100000000 ≤ 604462909807314587353088 + 7045568 * 2 ^ kc := by
      have h := hgridq
      exact_mod_cast h
    have hfin := gridCheck kc N hkc (by omega) hgrid
    have hfinq : (N : ℚ) * (2 : ℚ) ^ kc * 100000000 ≤ 604462909807314587353088 := by
      exact_mod_cast hfin
    rw [← hN]
    linarith

/-- The round trip of a non-negative `float64` value of at most 180 ends
within `10 ^ -8` of it. -/
theorem roundtrip_nat (D : Nat) (q : Int) (hD : D < 2 ^ 53) (hq : -1074 ≤ q)
    (h180 : (D : ℚ) * (2 : ℚ) ^ q ≤ 180) :
    |(CoordFromInt (IntFromCoord ⟨(D : Int), q⟩)).toRat - (D : ℚ) * (2 : ℚ) ^ q| ≤
      1 / 100000000 := by
  have hE : (0 : ℚ) < (2 : ℚ) ^ q := zpow_pos (by norm_num) q
  have hd0 : (0 : ℚ) ≤ (D : ℚ) * (2 : ℚ) ^ q := by positivity
  have hx : (D : ℚ) * 100000000 * (2 : ℚ) ^ q ≤ 18000000000 := by linarith
  obtain ⟨n, a, hI, hA1, hA2, hA3⟩ := IntFromCoord_nat D q hq hx
  rw [hI]
  have hW : (0 : ℚ) < (2 : ℚ) ^ a := zpow_pos (by norm_num) a
  have hn0 : (0 : ℚ) ≤ (n : ℚ) := by positivity
  have hnq : (n : ℚ) < 9007199254740992 := by linarith
  have hn' : n < 9007199254740992 := by exact_mod_cast hnq
  have hn : n < 2 ^ 53 := by
    norm_num
    exact hn'
  rcases CoordFromInt_cases n hn with hc | ⟨kc, Mc, hkc, hc, hMc, h1, h2⟩
  · rw [hc, abs_le]
    constructor <;> linarith
  · have hlow := roundtrip_lower D q n a kc Mc hD h180 hA1 hA2 hkc hMc h1 h2
    rw [hc]
    simp only [F64.toRat, Int.cast_natCast]
    rw [abs_le]
    constructor
    · linarith
    · have hPk : (0 : ℚ) < (2 : ℚ) ^ kc := by positivity
      have hUg : (2 : ℚ) ^ (-79 + (kc : Int)) = (2 : ℚ) ^ kc / 604462909807314587353088 := by
        rw [zpow_add₀ (by norm_num : (2 : ℚ) ≠ 0), zpow_natCast, zpow_neg]
        norm_num
        ring
      rw [hUg]
      have hMcq : (4503599627370496 : ℚ) ≤ (Mc : ℚ) := by exact_mod_cast hMc
      have h1q : 2 * ((Mc : ℚ) * (2 : ℚ) ^ kc) ≤
          2 * ((n : ℚ) * 6044629098073146) + (2 : ℚ) ^ kc := by exact_mod_cast h1
      have hcP := mul_le_mul_of_nonneg_right hMcq (le_of_lt hPk)
      linarith

/-- The round trip on the coordinate range: for every `float64` value `d`
with `|d| ≤ 180`, `CoordFromInt (IntFromCoord d)` is within `10 ^ -8` of `d`. -/
theorem CoordFromInt_IntFromCoord_exact (d : F64) (hd : d.IsFloat64)
    (h180 : |d.toRat| ≤ 180) :
    |(CoordFromInt (IntFromCoord d)).toRat - d.toRat| ≤ 1 / 100000000 := by
  obtain ⟨m, q⟩ := d
  obtain ⟨hm, hq, -⟩ := hd
  simp only at hm hq
  have hE : (0 : ℚ) < (2 : ℚ) ^ q := zpow_pos (by norm_num) q
  rcases Int.eq_nat_or_neg m with ⟨D, hD | hD⟩
  · subst hD
    have hD53 : D < 2 ^ 53 := by
      simp only [Int.natAbs_ofNat] at hm
      norm_num
      exact hm
    have h180' : (D : ℚ) * (2 : ℚ) ^ q ≤ 180 := by
      have := le_trans (le_abs_self _) h180
      simpa [F64.toRat] using this
    have := roundtrip_nat D q hD53 hq h180'
    simpa [F64.toRat] using this
  · subst hD
    have hD53 : D < 2 ^ 53 := by
      simp only [Int.natAbs_neg, Int.natAbs_ofNat] at hm
      norm_num
      exact hm
    have h180' : (D : ℚ) * (2 : ℚ) ^ q ≤ 180 := by
      have := le_trans (neg_le_abs _) h180
      simpa [F64.toRat] using this
    have := roundtrip_nat D q hD53 hq h180'
    rw [IntFromCoord_neg, CoordFromInt_neg]
    simp only [F64.toRat] at this ⊢
    push_cast
    have heq : -((CoordFromInt (IntFromCoord ⟨(D : Int), q⟩)).m : ℚ) *
          (2 : ℚ) ^ (CoordFromInt (IntFromCoord ⟨(D : Int), q⟩)).e - -(D : ℚ) * (2 : ℚ) ^ q =
        -(((CoordFromInt (IntFromCoord ⟨(D : Int), q⟩)).m : ℚ) *
          (2 : ℚ) ^ (CoordFromInt (IntFromCoord ⟨(D : Int), q⟩)).e - (D : ℚ) * (2 : ℚ) ^ q) := by
      ring
    rw [heq, abs_neg]
    simpa using this

/-- The conversion back multiplies by the `float64` nearest to `10 ^ -8`,
which is not dividing by `10 ^ 8`: for the fixed-point value 3 the product
and the quotient differ in the last bit. -/
theorem CoordFromInt_three :
    CoordFromInt 3 = ⟨4533471823554860, -77⟩ ∧
      F64.div (F64.ofInt64 3) pow10tab8 = ⟨4533471823554859, -77⟩ := by
  decide

set_option maxRecDepth 100000 in
/-- C15 fails as stated. For d = 3333333333.3333335 (mantissa
6990506666666667, exponent -21) the fixed-point form 333333333333333376 fits
the signed 64-bit range, and converting it back gives the next `float64`, off
by 2^-21, far more than 10^-8. For d = 512.61879799 (mantissa
4509042632052491, exponent -43) the fixed-point form is 51261879798 and the
round trip is off by slightly more than 10^-8 as well. -/
theorem C15_coordinate_roundtrip_counterexample :
    (F64.IsFloat64 ⟨6990506666666667, -21⟩ ∧
      IntFromCoord ⟨6990506666666667, -21⟩ = 333333333333333376 ∧
      CoordFromInt 333333333333333376 = ⟨6990506666666668, -21⟩ ∧
      ¬ |(CoordFromInt (IntFromCoord ⟨6990506666666667, -21⟩)).toRat -
          (⟨6990506666666667, -21⟩ : F64).toRat| ≤ 1 / 100000000) ∧
    (F64.IsFloat64 ⟨4509042632052491, -43⟩ ∧
      IntFromCoord ⟨4509042632052491, -43⟩ = 51261879798 ∧
      CoordFromInt 51261879798 = ⟨4509042631964530, -43⟩ ∧
      ¬ |(CoordFromInt (IntFromCoord ⟨4509042632052491, -43⟩)).toRat -
          (⟨4509042632052491, -43⟩ : F64).toRat| ≤ 1 / 100000000) := by
  have h1 : IntFromCoord ⟨6990506666666667, -21⟩ = 333333333333333376 := by decide
  have h2 : CoordFromInt 333333333333333376 = ⟨6990506666666668, -21⟩ := by decide
  have h3 : IntFromCoord ⟨4509042632052491, -43⟩ = 51261879798 := by decide
  have h4 : CoordFromInt 51261879798 = ⟨4509042631964530, -43⟩ := by decide
  refine ⟨⟨⟨by decide, by decide, by decide⟩, h1, h2, ?_⟩,
    ⟨⟨by decide, by decide, by decide⟩, h3, h4, ?_⟩⟩
  · rw [h1, h2]
    simp only [F64.toRat]
    rw [abs_of_pos (by norm_num)]
    norm_num
  · rw [h3, h4]
    simp only [F64.toRat]
    rw [abs_of_neg (by norm_num)]
    norm_num

/-- C15 as amended: for every `float64` value `d` whose fixed-point form fits
the signed 64-bit range, `CoordFromInt(IntFromCoord(d))` differs from `d` by
less than `10^-8 + 2^-51 * |d|`, the truncation to the fixed-point form plus
the rounding of the `float64` operations; and for every latitude or longitude
`d` with `|d| ≤ 180` the fixed-point form fits and the round trip differs
from `d` by at most `10^-8`. -/
theorem C15_coordinate_roundtrip (d : F64) (hd : d.IsFloat64) :
    (-9223372036854775808 ≤ IntFromCoord d ∧ IntFromCoord d < 9223372036854775808 →
      |(CoordFromInt (IntFromCoord d)).toRat - d.toRat| <
        1 / 100000000 + |d.toRat| / 2251799813685248) ∧
    (|d.toRat| ≤ 180 →
      (-9223372036854775808 ≤ IntFromCoord d ∧ IntFromCoord d < 9223372036854775808) ∧
        |(CoordFromInt (IntFromCoord d)).toRat - d.toRat| ≤ 1 / 100000000) :=
  ⟨fun _ => CoordFromInt_IntFromCoord_err d hd.2.1,
    fun h180 => ⟨IntFromCoord_fits d hd.2.1 h180, CoordFromInt_IntFromCoord_exact d hd h180⟩⟩

set_option maxRecDepth 100000 in
/-- Witness of C15 as amended: the latitude 51.510420 of main_test.go
(mantissa 7249447134928055, exponent -47) has the fixed-point form 5151042000
and comes back within `10^-8`. -/
theorem C15_coordinate_roundtrip_witness :
    F64.IsFloat64 ⟨7249447134928055, -47⟩ ∧
      |(⟨7249447134928055, -47⟩ : F64).toRat| ≤ 180 ∧
      IntFromCoord ⟨7249447134928055, -47⟩ = 5151042000 ∧
      |(CoordFromInt (IntFromCoord ⟨7249447134928055, -47⟩)).toRat -
          (⟨7249447134928055, -47⟩ : F64).toRat| <
        1 / 100000000 + |(⟨7249447134928055, -47⟩ : F64).toRat| / 2251799813685248 ∧
      |(CoordFromInt (IntFromCoord ⟨7249447134928055, -47⟩)).toRat -
          (⟨7249447134928055, -47⟩ : F64).toRat| ≤ 1 / 100000000 :=
  have hd : F64.IsFloat64 ⟨7249447134928055, -47⟩ := ⟨by decide, by decide, by decide⟩
  have h180 : |(⟨7249447134928055, -47⟩ : F64).toRat| ≤ 180 := by
    simp only [F64.toRat]
    rw [abs_of_pos (by norm_num)]
    norm_num
  ⟨hd, h180, by decide,
    (C15_coordinate_roundtrip ⟨7249447134928055, -47⟩ hd).1 (by decide),
    ((C15_coordinate_roundtrip ⟨7249447134928055, -47⟩ hd).2 h180).2⟩

end GoSpoofer
